import Mathlib

/-!
Verification of the Cognot workflow-execution engine against its
natural-language specification.

Shallow embedding: Python dicts become insertion-ordered association
lists (`List (String × α)`), Python exceptions become `Except`, and the
stateful queue / module managers become explicit state passing.  Each
definition is translated from the corresponding function in `src/`.
-/

namespace Cognot

/-! ## Association-list helpers (Python `dict` semantics)

Python dicts preserve insertion order; assignment to an existing key
updates the value in place, assignment to a fresh key appends. -/

/-- Lookup of a key, `d.get(k)` / `k in d`. -/
def alookup {α : Type} : List (String × α) → String → Option α
  | [], _ => none
  | (k', v) :: t, k => if k' = k then some v else alookup t k

/-- Assignment `d[k] = v`: replace in place if the key exists, else append. -/
def ainsert {α : Type} : List (String × α) → String → α → List (String × α)
  | [], k, v => [(k, v)]
  | (k', v') :: t, k, v =>
    if k' = k then (k, v) :: t else (k', v') :: ainsert t k v

/-- Key list of an association list (`d.keys()`, in insertion order). -/
def akeys {α : Type} (l : List (String × α)) : List String := l.map Prod.fst

theorem alookup_eq_some_of_mem_ainsert {α : Type} (l : List (String × α))
    (k : String) (v : α) : alookup (ainsert l k v) k = some v := by
  induction l with
  | nil => simp [ainsert, alookup]
  | cons h t ih =>
    obtain ⟨k', v'⟩ := h
    by_cases hk : k' = k
    · subst hk
      simp [ainsert, alookup]
    · simp [ainsert, alookup, hk, ih]

theorem alookup_ainsert_ne {α : Type} (l : List (String × α))
    (k k' : String) (v : α) (h : k ≠ k') :
    alookup (ainsert l k v) k' = alookup l k' := by
  induction l with
  | nil => simp [ainsert, alookup, h]
  | cons hd t ih =>
    obtain ⟨k₀, v₀⟩ := hd
    by_cases hk : k₀ = k
    · subst hk
      simp [ainsert, alookup, h]
    · simp [ainsert, alookup, hk, ih]

theorem alookup_isSome_of_mem_keys {α : Type} (l : List (String × α))
    (k : String) (h : k ∈ akeys l) : (alookup l k).isSome := by
  induction l with
  | nil => simp [akeys] at h
  | cons hd t ih =>
    obtain ⟨k₀, v₀⟩ := hd
    by_cases hk : k₀ = k
    · simp [alookup, hk]
    · simp [akeys] at h
      rcases h with h | h
      · exact absurd h.symm hk
      · simpa [alookup, hk] using ih (by simpa [akeys] using h)

theorem mem_keys_of_alookup_eq_some {α : Type} (l : List (String × α))
    (k : String) (v : α) (h : alookup l k = some v) : k ∈ akeys l := by
  induction l with
  | nil => simp [alookup] at h
  | cons hd t ih =>
    obtain ⟨k₀, v₀⟩ := hd
    by_cases hk : k₀ = k
    · simp [akeys, hk]
    · simp [alookup, hk] at h
      have := ih h
      simp [akeys] at this ⊢
      exact Or.inr this

/-! ## Plugin-manager repository state
(`src/core/module/plugin_manager.py`)

Fields of `PluginManager` that `disable_repository` / `enable_repository`
/ `restart_required` touch.  `_save_custom_repositories` only writes the
state to a config file, so it is invisible in a state-passing model. -/

structure RepoState where
  custom : List String
  disabled : List String
  indexCache : List (String × List String)
  reverseIndex : List (String × String)
  indexLastUpdated : Nat
deriving DecidableEq, Repr

/-- Translation of `PluginManager.disable_repository` (lines 714-739):
refuse if already disabled; otherwise remove the URL from the custom
list if present, append it to the disabled list, and clear the index
cache, the reverse index and the last-updated stamp. -/
def disableRepository (st : RepoState) (u : String) : Bool × RepoState :=
  if u ∈ st.disabled then
    (false, st)
  else
    let custom1 := if u ∈ st.custom then st.custom.erase u else st.custom
    (true,
      { custom := custom1
        disabled := st.disabled ++ [u]
        indexCache := []
        reverseIndex := []
        indexLastUpdated := 0 })

/-- Translation of `PluginManager.enable_repository` (lines 741-767):
refuse if not disabled; otherwise remove the URL from the disabled list,
append it to the custom list if absent, and clear the caches. -/
def enableRepository (st : RepoState) (u : String) : Bool × RepoState :=
  if u ∈ st.disabled then
    let disabled1 := st.disabled.erase u
    let custom1 := if u ∈ st.custom then st.custom else st.custom ++ [u]
    (true,
      { custom := custom1
        disabled := disabled1
        indexCache := []
        reverseIndex := []
        indexLastUpdated := 0 })
  else
    (false, st)

/-- Translation of `PluginManager.restart_required` (lines 1061-1070):
the body is literally `return False`; no field of the manager is read. -/
def restartRequired (_st : RepoState) : Bool := false

/-! ## Workflow document model (`src/core/graph_parser.py`)

JSON values appearing in a node's input bindings.  `vref s` stands for
the Python dict carrying a `$ref` key with string `s`
(`GraphExecutor._resolve_node_inputs` only distinguishes such dicts from
everything else); all remaining JSON literals are collapsed into the
opaque atoms `vstr` / `vint` / `vbool`. -/

inductive Value where
  | vstr : String → Value
  | vint : Int → Value
  | vbool : Bool → Value
  | vref : String → Value
deriving DecidableEq, Repr

/-- Raw node object of a workflow document; an `Option` field is `none`
when the JSON key is absent. -/
structure NodeDoc where
  id : Option String := none
  type : Option String := none
  inputs : Option (List (String × Value)) := none
  position : Option Value := none
  metadata : Option Value := none
deriving DecidableEq, Repr

/-- Raw edge object of a workflow document.  The camelCase and
underscored port fields are separate JSON keys. -/
structure EdgeDoc where
  id : Option String := none
  source : Option String := none
  source_output : Option String := none
  sourceOutput : Option String := none
  target : Option String := none
  target_input : Option String := none
  targetInput : Option String := none
deriving DecidableEq, Repr

/-- The `nodes` collection: map keyed by id, or list with explicit ids. -/
inductive NodesField where
  | nmap : List (String × NodeDoc) → NodesField
  | nlist : List NodeDoc → NodesField
deriving DecidableEq, Repr

/-- The `edges` collection: map keyed by id, or list with explicit ids. -/
inductive EdgesField where
  | emap : List (String × EdgeDoc) → EdgesField
  | elist : List EdgeDoc → EdgesField
deriving DecidableEq, Repr

/-- Top-level workflow document (`nodes` / `edges` keys optional). -/
structure WorkflowDoc where
  nodes : Option NodesField := none
  edges : Option EdgesField := none
deriving DecidableEq, Repr

/-- Python exceptions the parser and validator can raise. -/
inductive PyErr where
  | attributeError : PyErr
  | keyError : String → PyErr
  | valueError : String → PyErr
  | runtimeError : String → PyErr
deriving DecidableEq, Repr

/-! ## Workflow validation (`src/core/node_registry.py` lines 342-353)

`NodeRegistry.validate_workflow` iterates `workflow["nodes"]` directly.
When the collection is a list of node objects this walks the nodes; when
it is a map keyed by id, Python iteration yields the *keys* (strings),
and `node.get("type")` on a string raises `AttributeError` at the first
key. -/

/-- Loop body of `validate_workflow` over a list-form nodes collection:
`if node_type and node_type not in self._nodes: if node_type not in
missing_nodes: missing_nodes.append(node_type)`. -/
def validateMissing (registryNodes : List String) :
    List NodeDoc → List String → List String
  | [], acc => acc
  | n :: rest, acc =>
    match n.type with
    | some t =>
      if t ≠ "" ∧ t ∉ registryNodes ∧ t ∉ acc then
        validateMissing registryNodes rest (acc ++ [t])
      else
        validateMissing registryNodes rest acc
    | none => validateMissing registryNodes rest acc

/-- Translation of `NodeRegistry.validate_workflow`.  `registryNodes` is
the key set of `self._nodes`; the argument is the `nodes` entry of the
workflow dict (absent key → empty result). -/
def validateWorkflow (registryNodes : List String) :
    Option NodesField → Except PyErr (List String)
  | none => .ok []
  | some (.nlist ns) => .ok (validateMissing registryNodes ns [])
  | some (.nmap m) =>
    match m with
    | [] => .ok []
    | _ :: _ => .error .attributeError

/-! ## Parsed graph model (`src/core/graph_parser.py` dataclasses) -/

structure Edge where
  id : String
  source : String
  source_output : String
  target : String
  target_input : String
deriving DecidableEq, Repr

structure Node where
  id : String
  type : String
  inputs : List (String × Value)
  outputs : List (String × Value) := []
  position : Option Value := none
  metadata : Option Value := none
deriving DecidableEq, Repr

structure Graph where
  nodes : List (String × Node) := []
  edges : List (String × Edge) := []
deriving DecidableEq, Repr

def Graph.addNode (g : Graph) (n : Node) : Graph :=
  { g with nodes := ainsert g.nodes n.id n }

def Graph.addEdge (g : Graph) (e : Edge) : Graph :=
  { g with edges := ainsert g.edges e.id e }

def Graph.getNode (g : Graph) (i : String) : Option Node :=
  alookup g.nodes i

def Graph.nodeIds (g : Graph) : List String := akeys g.nodes

def Graph.edgeList (g : Graph) : List Edge := g.edges.map Prod.snd

/-- Translation of `Graph.get_edges_from_node`. -/
def Graph.edgesFromNode (g : Graph) (i : String) : List Edge :=
  g.edgeList.filter (fun e => e.source = i)

/-- Translation of `Graph.get_edges_to_node`. -/
def Graph.edgesToNode (g : Graph) (i : String) : List Edge :=
  g.edgeList.filter (fun e => e.target = i)

/-- Translation of `Graph.update_node_outputs`: overwrite the node's
recorded outputs if the node exists, else do nothing. -/
def Graph.updateNodeOutputs (g : Graph) (i : String)
    (outs : List (String × Value)) : Graph :=
  match alookup g.nodes i with
  | none => g
  | some n => { g with nodes := ainsert g.nodes i { n with outputs := outs } }

/-! ## Parser (`GraphParser._parse_workflow_def`, lines 102-178) -/

/-- Required dict access `d[k]` (raises `KeyError` when absent). -/
def reqField {α : Type} (v : Option α) (k : String) : Except PyErr α :=
  match v with
  | some x => .ok x
  | none => .error (.keyError k)

/-- Node construction for a map-form entry: `type` is a required field,
`inputs` defaults to the empty dict. -/
def parseNodeMapEntry (nid : String) (nd : NodeDoc) : Except PyErr Node := do
  let t ← reqField nd.type "type"
  .ok { id := nid, type := t, inputs := nd.inputs.getD [],
        position := nd.position, metadata := nd.metadata }

/-- Node construction for a list-form entry: `id` is read first, then
the same fields as the map form. -/
def parseNodeListEntry (nd : NodeDoc) : Except PyErr Node := do
  let nid ← reqField nd.id "id"
  parseNodeMapEntry nid nd

/-- Edge construction for a map-form entry (lines 142-165): the
underscored port field is preferred, the camelCase spelling is the
fallback, and a `ValueError` is raised when both are absent; `source`
and `target` are read afterwards, when the `Edge` is constructed. -/
def parseEdgeMapEntry (eid : String) (ed : EdgeDoc) : Except PyErr Edge := do
  let so ←
    match ed.source_output with
    | some v => Except.ok v
    | none =>
      match ed.sourceOutput with
      | some v => Except.ok v
      | none =>
        Except.error (.valueError
          ("Edge " ++ eid ++ " missing source_output or sourceOutput field"))
  let ti ←
    match ed.target_input with
    | some v => Except.ok v
    | none =>
      match ed.targetInput with
      | some v => Except.ok v
      | none =>
        Except.error (.valueError
          ("Edge " ++ eid ++ " missing target_input or targetInput field"))
  let s ← reqField ed.source "source"
  let tg ← reqField ed.target "target"
  .ok { id := eid, source := s, source_output := so,
        target := tg, target_input := ti }

/-- Edge construction for a list-form entry (lines 166-176): every field
is a plain required dict access, read in keyword order; the camelCase
spellings are never consulted. -/
def parseEdgeListEntry (ed : EdgeDoc) : Except PyErr Edge := do
  let eid ← reqField ed.id "id"
  let s ← reqField ed.source "source"
  let so ← reqField ed.source_output "source_output"
  let tg ← reqField ed.target "target"
  let ti ← reqField ed.target_input "target_input"
  .ok { id := eid, source := s, source_output := so,
        target := tg, target_input := ti }

/-- First loop of `_parse_workflow_def` (lines 108-133): add every node
of the nodes collection to the graph, raising on the first malformed
entry. -/
def parseNodesStage (g : Graph) : Option NodesField → Except PyErr Graph
  | none => .ok g
  | some (.nmap m) =>
    m.foldlM (fun g kv => do
      let n ← parseNodeMapEntry kv.1 kv.2
      pure (g.addNode n)) g
  | some (.nlist l) =>
    l.foldlM (fun g nd => do
      let n ← parseNodeListEntry nd
      pure (g.addNode n)) g

/-- Second loop of `_parse_workflow_def` (lines 136-176): add every edge
of the edges collection to the graph, raising on the first malformed
entry. -/
def parseEdgesStage (g : Graph) : Option EdgesField → Except PyErr Graph
  | none => .ok g
  | some (.emap m) =>
    m.foldlM (fun g kv => do
      let e ← parseEdgeMapEntry kv.1 kv.2
      pure (g.addEdge e)) g
  | some (.elist l) =>
    l.foldlM (fun g ed => do
      let e ← parseEdgeListEntry ed
      pure (g.addEdge e)) g

/-- Translation of `GraphParser._parse_workflow_def`: build the graph by
walking the nodes collection and then the edges collection, raising on
the first malformed entry.  No check relates edge endpoints to the node
set. -/
def parseWorkflowDef (doc : WorkflowDoc) : Except PyErr Graph :=
  parseNodesStage {} doc.nodes >>= fun g => parseEdgesStage g doc.edges

/-! ## Remote-index lookup and the gateway's bulk remediation
(`src/core/module/plugin_manager.py` lines 828-899,
`src/api/gateway/main.py` lines 334-386)

Network fetches are external effects: the reverse index a fetch would
build is passed in as `fetched` (`none` models a fetch that raised). -/

/-- Translation of `PluginManager.find_plugin_for_node`: when both the
reverse index and the index cache are empty, fetch and store the reverse
index (or return null if the fetch fails), then look the node type up in
the reverse index. -/
def findPluginForNode (fetched : Option (List (String × String)))
    (st : RepoState) (t : String) : Option String × RepoState :=
  if st.reverseIndex = [] ∧ st.indexCache = [] then
    match fetched with
    | none => (none, st)
    | some ri => (alookup ri t, { st with reverseIndex := ri })
  else
    (alookup st.reverseIndex t, st)

/-- Translation of `PluginManager.get_missing_nodes_plugins`: map each
missing node type to its plugin URL, skipping unresolvable ones. -/
def getMissingNodesPlugins (fetched : Option (List (String × String))) :
    List String → RepoState → List (String × String) × RepoState
  | [], st => ([], st)
  | n :: rest, st =>
    let r := findPluginForNode fetched st n
    let tail := getMissingNodesPlugins fetched rest r.2
    match r.1 with
    | some url => ((n, url) :: tail.1, tail.2)
    | none => (tail.1, tail.2)

structure InstallResult where
  nodeType : String
  gitUrl : String
  ok : Bool
  message : String
deriving DecidableEq, Repr

/-- Responses of the gateway endpoint `install_missing_nodes`. -/
inductive InstallMissingResponse where
  | noMissing : InstallMissingResponse
  | noPlugins : InstallMissingResponse
  | installed : List InstallResult → Bool → InstallMissingResponse
  | httpError : InstallMissingResponse
deriving DecidableEq, Repr

/-- Translation of the gateway handler `install_missing_nodes`
(`src/api/gateway/main.py` lines 334-386): validate, resolve the missing
node types to plugin URLs, install each one (`installOutcome` supplies
each clone's success flag and error message — an external effect), and
report the results together with `restart_required()`. -/
def installMissingNodes (reg : List String)
    (fetched : Option (List (String × String)))
    (installOutcome : String → Bool × String) (st : RepoState)
    (workflow : Option NodesField) : InstallMissingResponse × RepoState :=
  match validateWorkflow reg workflow with
  | .error _ => (.httpError, st)
  | .ok missing =>
    if missing.isEmpty then
      (.noMissing, st)
    else
      let pl := getMissingNodesPlugins fetched missing st
      if pl.1.isEmpty then
        (.noPlugins, pl.2)
      else
        let results := pl.1.map (fun p =>
          let outcome := installOutcome p.2
          { nodeType := p.1, gitUrl := p.2, ok := outcome.1,
            message := if outcome.1 then "Plugin installed successfully"
                       else outcome.2 })
        (.installed results (restartRequired pl.2), pl.2)

/-! ## Claim C10: disable/enable repository round-trip -/

/-- C10: `disable_repository(u)` removes `u` from the custom list and
adds it to the disabled list; a subsequent `enable_repository(u)` adds
`u` to the custom list, so for a URL that was never a custom repository
the disable/enable pair leaves it registered as a custom repository —
not a round-trip back to the prior state. -/
theorem C10_disable_enable_not_roundtrip (st : RepoState) (u : String)
    (hc : u ∉ st.custom) (hd : u ∉ st.disabled) :
    (disableRepository st u).1 = true ∧
    u ∉ (disableRepository st u).2.custom ∧
    u ∈ (disableRepository st u).2.disabled ∧
    (enableRepository (disableRepository st u).2 u).1 = true ∧
    u ∈ (enableRepository (disableRepository st u).2 u).2.custom ∧
    (enableRepository (disableRepository st u).2 u).2.custom ≠ st.custom := by
  have h1 : disableRepository st u =
      (true, { custom := st.custom, disabled := st.disabled ++ [u],
               indexCache := [], reverseIndex := [], indexLastUpdated := 0 }) := by
    simp [disableRepository, hd, hc]
  have hu : u ∈ st.disabled ++ [u] := by simp
  refine ⟨by rw [h1], by rw [h1]; exact hc, by rw [h1]; exact hu, ?_, ?_, ?_⟩
  · rw [h1]; simp [enableRepository, hu, hc]
  · rw [h1]; simp [enableRepository, hu, hc]
  · rw [h1]
    simp only [enableRepository]
    simp [hu, hc]

/-- Witness for C10 at a concrete state and URL. -/
theorem C10_witness :
    let st : RepoState :=
      { custom := ["https://a.example/x.git"], disabled := [],
        indexCache := [], reverseIndex := [], indexLastUpdated := 5 }
    let u := "https://b.example/y.git"
    (disableRepository st u).1 = true ∧
    u ∉ (disableRepository st u).2.custom ∧
    u ∈ (disableRepository st u).2.disabled ∧
    (enableRepository (disableRepository st u).2 u).1 = true ∧
    u ∈ (enableRepository (disableRepository st u).2 u).2.custom ∧
    (enableRepository (disableRepository st u).2 u).2.custom ≠
      ["https://a.example/x.git"] :=
  C10_disable_enable_not_roundtrip _ _ (by decide) (by decide)

/-! ## Claim C9: the restart-required flag -/

/-- C9 counterexample: a bulk remediation that installs a native-code
plugin (a CUDA sampler) still reports `restart_required = false`,
because `PluginManager.restart_required` unconditionally returns
`False`.  This refutes the claim that the flag is true whenever
native-code modules are involved. -/
theorem C9_counterexample :
    (installMissingNodes []
      (some [("native_cuda_sampler", "https://e.example/native.git")])
      (fun _ => (true, ""))
      { custom := [], disabled := [], indexCache := [], reverseIndex := [],
        indexLastUpdated := 0 }
      (some (.nlist [{ type := some "native_cuda_sampler" }]))).1 =
    .installed
      [{ nodeType := "native_cuda_sampler",
         gitUrl := "https://e.example/native.git", ok := true,
         message := "Plugin installed successfully" }]
      false := by
  rfl

/-- C9 amended: `restart_required` always returns false — it reads no
state at all — so every `install_missing_nodes` response that reaches
the install branch carries `restart_required = false`, regardless of
which modules were installed. -/
theorem C9_restart_required_always_false :
    (∀ st : RepoState, restartRequired st = false) ∧
    (∀ (reg : List String) (fetched : Option (List (String × String)))
       (installOutcome : String → Bool × String) (st : RepoState)
       (workflow : Option NodesField) (results : List InstallResult)
       (flag : Bool),
       (installMissingNodes reg fetched installOutcome st workflow).1 =
         .installed results flag → flag = false) := by
  refine ⟨fun _ => rfl, ?_⟩
  intro reg fetched installOutcome st workflow results flag h
  unfold installMissingNodes at h
  cases hv : validateWorkflow reg workflow with
  | error e => rw [hv] at h; simp at h
  | ok missing =>
    rw [hv] at h
    by_cases hm : missing.isEmpty
    · simp [hm] at h
    · simp only [hm, if_false, Bool.false_eq_true] at h
      by_cases hp : (getMissingNodesPlugins fetched missing st).1.isEmpty
      · simp [hp] at h
      · simp only [hp, if_false, Bool.false_eq_true] at h
        have := (InstallMissingResponse.installed.injEq _ _ _ _).mp h
        exact this.2.symm

/-- Witness for C9's amended theorem at the counterexample's input. -/
theorem C9_witness :
    restartRequired
      { custom := [], disabled := [], indexCache := [], reverseIndex := [],
        indexLastUpdated := 0 } = false ∧
    (false : Bool) = false :=
  ⟨C9_restart_required_always_false.1 _,
   C9_restart_required_always_false.2 []
     (some [("native_cuda_sampler", "https://e.example/native.git")])
     (fun _ => (true, ""))
     { custom := [], disabled := [], indexCache := [], reverseIndex := [],
       indexLastUpdated := 0 }
     (some (.nlist [{ type := some "native_cuda_sampler" }]))
     [{ nodeType := "native_cuda_sampler",
        gitUrl := "https://e.example/native.git", ok := true,
        message := "Plugin installed successfully" }]
     false (by rfl)⟩

/-! ## Claim C2: workflow validation -/

theorem mem_validateMissing (reg : List String) :
    ∀ (ns : List NodeDoc) (acc : List String) (t : String),
      t ∈ validateMissing reg ns acc ↔
        t ∈ acc ∨ (t ≠ "" ∧ t ∉ reg ∧ ∃ n ∈ ns, n.type = some t) := by
  intro ns
  induction ns with
  | nil => intro acc t; simp [validateMissing]
  | cons n rest ih =>
    intro acc t
    cases hn : n.type with
    | none =>
      simp only [validateMissing, hn, ih, List.mem_cons]
      constructor
      · rintro (h | ⟨h1, h2, m, hm, hmt⟩)
        · exact Or.inl h
        · exact Or.inr ⟨h1, h2, m, Or.inr hm, hmt⟩
      · rintro (h | ⟨h1, h2, m, (rfl | hm), hmt⟩)
        · exact Or.inl h
        · rw [hn] at hmt; cases hmt
        · exact Or.inr ⟨h1, h2, m, hm, hmt⟩
    | some t0 =>
      by_cases hc : t0 ≠ "" ∧ t0 ∉ reg ∧ t0 ∉ acc
      · simp only [validateMissing, hn, if_pos hc, ih, List.mem_append,
          List.mem_cons, List.not_mem_nil, or_false]
        constructor
        · rintro ((h | rfl) | ⟨h1, h2, m, hm, hmt⟩)
          · exact Or.inl h
          · exact Or.inr ⟨hc.1, hc.2.1, n, Or.inl rfl, hn⟩
          · exact Or.inr ⟨h1, h2, m, Or.inr hm, hmt⟩
        · rintro (h | ⟨h1, h2, m, (rfl | hm), hmt⟩)
          · exact Or.inl (Or.inl h)
          · rw [hn] at hmt
            cases hmt
            exact Or.inl (Or.inr rfl)
          · exact Or.inr ⟨h1, h2, m, hm, hmt⟩
      · simp only [validateMissing, hn, if_neg hc, ih, List.mem_cons]
        constructor
        · rintro (h | ⟨h1, h2, m, hm, hmt⟩)
          · exact Or.inl h
          · exact Or.inr ⟨h1, h2, m, Or.inr hm, hmt⟩
        · rintro (h | ⟨h1, h2, m, (rfl | hm), hmt⟩)
          · exact Or.inl h
          · rw [hn] at hmt
            cases hmt
            -- the guard failed for t, so t is "" or registered or already in acc
            rcases not_and_or.mp hc with h0 | h0
            · exact absurd h1 (by simpa using h0)
            rcases not_and_or.mp h0 with h3 | h3
            · exact absurd h2 (by simpa using h3)
            · exact Or.inl (by simpa using h3)
          · exact Or.inr ⟨h1, h2, m, hm, hmt⟩

/-- C2 counterexample: with the map-keyed form of the nodes collection,
`validate_workflow` iterates the dict's keys (strings) and
`key.get("type")` raises `AttributeError`, so it does not return the set
of missing node-type names — not even when every referenced type is
registered. -/
theorem C2_counterexample :
    validateWorkflow ["known_type"]
      (some (.nmap [("n1", { type := some "known_type" })])) =
    .error .attributeError := rfl

/-- C2 amended: for the list form of the nodes collection,
`validate_workflow` returns exactly the de-duplicated node-type names
referenced by the workflow (nodes carrying a non-empty `type` field)
that are absent from the registry, and this list is empty iff every
referenced node type is registered; for a non-empty map-keyed nodes
collection it raises `AttributeError` instead of returning a result. -/
theorem C2_validate_workflow (reg : List String) :
    (∀ ns : List NodeDoc, ∃ l,
      validateWorkflow reg (some (.nlist ns)) = .ok l ∧
      (∀ t, t ∈ l ↔ t ≠ "" ∧ t ∉ reg ∧ ∃ n ∈ ns, n.type = some t) ∧
      (l = [] ↔ ∀ n ∈ ns, ∀ t, n.type = some t → t ≠ "" → t ∈ reg)) ∧
    (∀ (k : String) (nd : NodeDoc) (m : List (String × NodeDoc)),
      validateWorkflow reg (some (.nmap ((k, nd) :: m))) =
        .error .attributeError) := by
  constructor
  · intro ns
    refine ⟨validateMissing reg ns [], rfl, ?_, ?_⟩
    · intro t
      simpa using mem_validateMissing reg ns [] t
    · rw [List.eq_nil_iff_forall_not_mem]
      constructor
      · intro h n hn t ht hne
        by_contra hreg
        exact h t ((mem_validateMissing reg ns [] t).mpr
          (Or.inr ⟨hne, hreg, n, hn, ht⟩))
      · intro h t ht
        rcases (mem_validateMissing reg ns [] t).mp ht with h0 | ⟨h1, h2, n, hn, hnt⟩
        · simp at h0
        · exact h2 (h n hn t hnt h1)
  · intro k nd m
    rfl

/-- Witness for C2's amended theorem: a two-node list-form workflow with
one unregistered type. -/
theorem C2_witness :
    ∃ l, validateWorkflow ["add"]
        (some (.nlist [{ type := some "add" }, { type := some "mystery" }])) =
        .ok l ∧
      (∀ t, t ∈ l ↔ t ≠ "" ∧ t ∉ ["add"] ∧
        ∃ n ∈ [({ type := some "add" } : NodeDoc), { type := some "mystery" }],
          n.type = some t) ∧
      (l = [] ↔ ∀ n ∈ [({ type := some "add" } : NodeDoc), { type := some "mystery" }],
        ∀ t, n.type = some t → t ≠ "" → t ∈ ["add"]) :=
  (C2_validate_workflow ["add"]).1
    [{ type := some "add" }, { type := some "mystery" }]

/-! ## Claims C7 and C8: parser error behaviour and edge-field naming -/

/-- Success test for a Python call modelled with `Except` (true iff no
exception was raised). -/
def exOk {α : Type} : Except PyErr α → Bool
  | .ok _ => true
  | .error _ => false

theorem exOk_bind {α β : Type} (e : Except PyErr α) (f : α → Except PyErr β) :
    exOk (e >>= f) = true ↔ ∃ x, e = .ok x ∧ exOk (f x) = true := by
  cases e <;> simp [Bind.bind, Except.bind, exOk]

/-- Field-presence condition under which a map-form node entry parses. -/
def nodeMapEntryOk (nd : NodeDoc) : Bool := nd.type.isSome

/-- Field-presence condition under which a list-form node entry parses. -/
def nodeListEntryOk (nd : NodeDoc) : Bool := nd.id.isSome && nd.type.isSome

/-- Field-presence condition under which a map-form edge entry parses:
either spelling of each port field, plus `source` and `target`. -/
def edgeMapEntryOk (ed : EdgeDoc) : Bool :=
  (ed.source_output.isSome || ed.sourceOutput.isSome) &&
  ((ed.target_input.isSome || ed.targetInput.isSome) &&
   (ed.source.isSome && ed.target.isSome))

/-- Field-presence condition under which a list-form edge entry parses:
only the underscored spellings count. -/
def edgeListEntryOk (ed : EdgeDoc) : Bool :=
  ed.id.isSome && (ed.source.isSome && (ed.source_output.isSome &&
  (ed.target.isSome && ed.target_input.isSome)))

/-- Field-presence condition for the whole nodes collection. -/
def nodesFieldOk : Option NodesField → Bool
  | none => true
  | some (.nmap m) => m.all (fun kv => nodeMapEntryOk kv.2)
  | some (.nlist l) => l.all nodeListEntryOk

/-- Field-presence condition for the whole edges collection. -/
def edgesFieldOk : Option EdgesField → Bool
  | none => true
  | some (.emap m) => m.all (fun kv => edgeMapEntryOk kv.2)
  | some (.elist l) => l.all edgeListEntryOk

/-- Exactly the conditions under which `_parse_workflow_def` raises no
exception.  Note that no clause relates edge endpoints to node ids. -/
def requiredFieldsPresent (doc : WorkflowDoc) : Bool :=
  nodesFieldOk doc.nodes && edgesFieldOk doc.edges

theorem bool_eq_of_iff {a b : Bool} (h : a = true ↔ b = true) : a = b := by
  cases a <;> cases b <;> simp_all

theorem exOk_parseNodeMapEntry (nid : String) (nd : NodeDoc) :
    exOk (parseNodeMapEntry nid nd) = nodeMapEntryOk nd := by
  cases h : nd.type <;>
    simp [parseNodeMapEntry, reqField, h, nodeMapEntryOk, Bind.bind,
      Except.bind, exOk]

theorem exOk_parseNodeListEntry (nd : NodeDoc) :
    exOk (parseNodeListEntry nd) = nodeListEntryOk nd := by
  cases h1 : nd.id <;> cases h2 : nd.type <;>
    simp [parseNodeListEntry, parseNodeMapEntry, reqField, h1, h2,
      nodeListEntryOk, Bind.bind, Except.bind, exOk]

theorem exOk_parseEdgeMapEntry (eid : String) (ed : EdgeDoc) :
    exOk (parseEdgeMapEntry eid ed) = edgeMapEntryOk ed := by
  cases h1 : ed.source_output <;> cases h2 : ed.sourceOutput <;>
    cases h3 : ed.target_input <;> cases h4 : ed.targetInput <;>
    cases h5 : ed.source <;> cases h6 : ed.target <;>
    simp [parseEdgeMapEntry, reqField, h1, h2, h3, h4, h5, h6,
      edgeMapEntryOk, Bind.bind, Except.bind, exOk]

theorem exOk_parseEdgeListEntry (ed : EdgeDoc) :
    exOk (parseEdgeListEntry ed) = edgeListEntryOk ed := by
  cases h1 : ed.id <;> cases h2 : ed.source <;>
    cases h3 : ed.source_output <;> cases h4 : ed.target <;>
    cases h5 : ed.target_input <;>
    simp [parseEdgeListEntry, reqField, h1, h2, h3, h4, h5,
      edgeListEntryOk, Bind.bind, Except.bind, exOk]

theorem exOk_foldParse {α β : Type} (p : α → Except PyErr β)
    (upd : Graph → β → Graph) :
    ∀ (l : List α) (g : Graph),
      exOk (l.foldlM (fun g a => do
        let b ← p a
        pure (upd g b)) g) = true ↔ ∀ a ∈ l, exOk (p a) = true := by
  intro l
  induction l with
  | nil => intro g; simp [List.foldlM, exOk, pure, Except.pure]
  | cons a t ih =>
    intro g
    cases hp : p a with
    | error e =>
      have hred : ((a :: t).foldlM (fun g a => do
          let b ← p a
          pure (upd g b)) g) = (.error e : Except PyErr Graph) := by
        simp [List.foldlM_cons, hp, Bind.bind, Except.bind]
      rw [hred]
      constructor
      · intro h; exact absurd h (by simp [exOk])
      · intro h
        have hcontra := h a (List.mem_cons_self a t)
        rw [hp] at hcontra
        exact absurd hcontra (by simp [exOk])
    | ok b =>
      have hred : ((a :: t).foldlM (fun g a => do
          let b ← p a
          pure (upd g b)) g) = t.foldlM (fun g a => do
          let b ← p a
          pure (upd g b)) (upd g b) := by
        simp [List.foldlM_cons, hp, Bind.bind, Except.bind, pure, Except.pure]
      rw [hred, ih]
      constructor
      · intro h x hx
        rcases List.mem_cons.mp hx with rfl | hx
        · rw [hp]; rfl
        · exact h x hx
      · intro h x hx
        exact h x (List.mem_cons_of_mem a hx)

/-- C7 counterexample: a workflow whose only edge names the nonexistent
source node `ghost` parses successfully — the parser performs no
endpoint validation, so it returns a graph instead of failing. -/
theorem C7_counterexample :
    ∃ g, parseWorkflowDef
      { nodes := some (.nmap [("a", { type := some "t1" })]),
        edges := some (.emap [("e1",
          { source := some "ghost", source_output := some "o",
            target := some "a", target_input := some "i" })]) } = .ok g ∧
      g.getNode "ghost" = none ∧
      ∃ e, ("e1", e) ∈ g.edges ∧ e.source = "ghost" := by
  refine ⟨{ nodes := [("a", { id := "a", type := "t1", inputs := [] })],
            edges := [("e1", { id := "e1", source := "ghost",
                               source_output := "o", target := "a",
                               target_input := "i" })] },
          rfl, rfl, ?_⟩
  exact ⟨{ id := "e1", source := "ghost", source_output := "o",
           target := "a", target_input := "i" }, by simp, rfl⟩

theorem exOk_iff_exists {α : Type} (e : Except PyErr α) :
    exOk e = true ↔ ∃ x, e = .ok x := by
  cases e <;> simp [exOk]

theorem exOk_parseNodesStage (nf : Option NodesField) (g : Graph) :
    exOk (parseNodesStage g nf) = nodesFieldOk nf := by
  apply bool_eq_of_iff
  cases nf with
  | none => simp [parseNodesStage, nodesFieldOk, exOk]
  | some nf =>
    cases nf with
    | nmap m =>
      rw [show parseNodesStage g (some (.nmap m)) =
        m.foldlM (fun g kv => do
          let n ← parseNodeMapEntry kv.1 kv.2
          pure (g.addNode n)) g from rfl]
      rw [exOk_foldParse]
      simp [nodesFieldOk, List.all_eq_true, exOk_parseNodeMapEntry]
    | nlist l =>
      rw [show parseNodesStage g (some (.nlist l)) =
        l.foldlM (fun g nd => do
          let n ← parseNodeListEntry nd
          pure (g.addNode n)) g from rfl]
      rw [exOk_foldParse]
      simp [nodesFieldOk, List.all_eq_true, exOk_parseNodeListEntry]

theorem exOk_parseEdgesStage (ef : Option EdgesField) (g : Graph) :
    exOk (parseEdgesStage g ef) = edgesFieldOk ef := by
  apply bool_eq_of_iff
  cases ef with
  | none => simp [parseEdgesStage, edgesFieldOk, exOk]
  | some ef =>
    cases ef with
    | emap m =>
      rw [show parseEdgesStage g (some (.emap m)) =
        m.foldlM (fun g kv => do
          let e ← parseEdgeMapEntry kv.1 kv.2
          pure (g.addEdge e)) g from rfl]
      rw [exOk_foldParse]
      simp [edgesFieldOk, List.all_eq_true, exOk_parseEdgeMapEntry]
    | elist l =>
      rw [show parseEdgesStage g (some (.elist l)) =
        l.foldlM (fun g ed => do
          let e ← parseEdgeListEntry ed
          pure (g.addEdge e)) g from rfl]
      rw [exOk_foldParse]
      simp [edgesFieldOk, List.all_eq_true, exOk_parseEdgeListEntry]

/-- C7 amended: parsing fails (with `KeyError` / `ValueError`, the
code's stand-ins for a malformed-graph error) exactly when a required
field of a node or edge entry is missing; an edge whose source or
target names a node id absent from the nodes collection is *not*
rejected — the parser performs no endpoint validation. -/
theorem C7_parse_ok_iff_fields_present (doc : WorkflowDoc) :
    exOk (parseWorkflowDef doc) = true ↔ requiredFieldsPresent doc = true := by
  unfold parseWorkflowDef requiredFieldsPresent
  rw [exOk_bind, Bool.and_eq_true]
  constructor
  · rintro ⟨g1, hg1, h2⟩
    constructor
    · rw [← exOk_parseNodesStage doc.nodes ({} : Graph), hg1]; rfl
    · rw [← exOk_parseEdgesStage doc.edges g1]
      exact h2
  · rintro ⟨hn, he⟩
    have h1 : exOk (parseNodesStage {} doc.nodes) = true := by
      rw [exOk_parseNodesStage]; exact hn
    rcases (exOk_iff_exists _).mp h1 with ⟨g1, hg1⟩
    refine ⟨g1, hg1, ?_⟩
    rw [exOk_parseEdgesStage]
    exact he

/-- Witness for C7's amended theorem at a concrete well-formed document
containing a dangling edge. -/
theorem C7_witness :
    exOk (parseWorkflowDef
      { nodes := some (.nmap [("a", { type := some "t1" })]),
        edges := some (.emap [("e1",
          { source := some "ghost", source_output := some "o",
            target := some "a", target_input := some "i" })]) }) = true ↔
    requiredFieldsPresent
      { nodes := some (.nmap [("a", { type := some "t1" })]),
        edges := some (.emap [("e1",
          { source := some "ghost", source_output := some "o",
            target := some "a", target_input := some "i" })]) } = true :=
  C7_parse_ok_iff_fields_present _

/-- C8 counterexample: a list-form edge that uses the camelCase
spellings `sourceOutput` / `targetInput` does not parse — the list
branch raises `KeyError` on `source_output` — refuting the claim that
both naming conventions are accepted in both representations. -/
theorem C8_counterexample :
    parseWorkflowDef
      { edges := some (.elist [
          { id := some "e1", source := some "a", sourceOutput := some "o",
            target := some "b", targetInput := some "i" }]) } =
      .error (.keyError "source_output") := rfl

/-- C8 amended: for the map representation of the edges collection the
parser accepts either naming convention for edge port fields (the
underscored spelling taking precedence) and normalizes to the
underscored form in the resulting `Edge`; for the list representation
only the underscored spellings are accepted, and the camelCase fields
are never consulted. -/
theorem C8_edge_field_conventions :
    (∀ (eid : String) (ed : EdgeDoc) (s t so ti : String),
        ed.source = some s → ed.target = some t →
        (ed.source_output <|> ed.sourceOutput) = some so →
        (ed.target_input <|> ed.targetInput) = some ti →
        parseEdgeMapEntry eid ed =
          .ok { id := eid, source := s, source_output := so,
                target := t, target_input := ti }) ∧
    (∀ ed : EdgeDoc, exOk (parseEdgeListEntry ed) = edgeListEntryOk ed) ∧
    (∀ (ed : EdgeDoc) (e : Edge), parseEdgeListEntry ed = .ok e →
        ed.source_output = some e.source_output ∧
        ed.target_input = some e.target_input) := by
  refine ⟨?_, exOk_parseEdgeListEntry, ?_⟩
  · intro eid ed s t so ti hs ht hso hti
    cases h1 : ed.source_output with
    | some v =>
      rw [h1] at hso
      simp only [Option.some_orElse] at hso
      cases hso
      cases h3 : ed.target_input with
      | some w =>
        rw [h3] at hti
        simp only [Option.some_orElse] at hti
        cases hti
        simp [parseEdgeMapEntry, h1, h3, hs, ht, reqField, Bind.bind,
          Except.bind, pure, Except.pure]
      | none =>
        rw [h3] at hti
        simp only [Option.none_orElse] at hti
        cases h4 : ed.targetInput with
        | some w =>
          rw [h4] at hti
          cases hti
          simp [parseEdgeMapEntry, h1, h3, h4, hs, ht, reqField, Bind.bind,
            Except.bind, pure, Except.pure]
        | none => rw [h4] at hti; cases hti
    | none =>
      rw [h1] at hso
      simp only [Option.none_orElse] at hso
      cases h2 : ed.sourceOutput with
      | some v =>
        rw [h2] at hso
        cases hso
        cases h3 : ed.target_input with
        | some w =>
          rw [h3] at hti
          simp only [Option.some_orElse] at hti
          cases hti
          simp [parseEdgeMapEntry, h1, h2, h3, hs, ht, reqField, Bind.bind,
            Except.bind, pure, Except.pure]
        | none =>
          rw [h3] at hti
          simp only [Option.none_orElse] at hti
          cases h4 : ed.targetInput with
          | some w =>
            rw [h4] at hti
            cases hti
            simp [parseEdgeMapEntry, h1, h2, h3, h4, hs, ht, reqField,
              Bind.bind, Except.bind, pure, Except.pure]
          | none => rw [h4] at hti; cases hti
      | none => rw [h2] at hso; cases hso
  · intro ed e h
    cases h1 : ed.id <;> cases h2 : ed.source <;>
      cases h3 : ed.source_output <;> cases h4 : ed.target <;>
      cases h5 : ed.target_input <;>
      rw [parseEdgeListEntry] at h <;>
      simp [reqField, h1, h2, h3, h4, h5, Bind.bind, Except.bind, pure,
        Except.pure] at h
    rcases h with rfl
    exact ⟨rfl, rfl⟩

/-- Witness for C8's amended theorem: a map-form edge spelled camelCase
parses and is normalized; a list-form edge spelled underscored parses. -/
theorem C8_witness :
    parseEdgeMapEntry "e2"
      { source := some "a", sourceOutput := some "o",
        target := some "b", targetInput := some "i" } =
      .ok { id := "e2", source := "a", source_output := "o",
            target := "b", target_input := "i" } ∧
    exOk (parseEdgeListEntry
      { id := some "e3", source := some "a", source_output := some "o",
        target := some "b", target_input := some "i" }) =
      edgeListEntryOk
      { id := some "e3", source := some "a", source_output := some "o",
        target := some "b", target_input := some "i" } :=
  ⟨C8_edge_field_conventions.1 "e2"
      { source := some "a", sourceOutput := some "o",
        target := some "b", targetInput := some "i" }
      "a" "b" "o" "i" rfl rfl rfl rfl,
   C8_edge_field_conventions.2.1 _⟩

/-! ## Claim C6: module activation with a failing dependency
(`src/core/module/module_manager.py`)

The manager is a dict module-id → `ModuleInstance`; external behaviour
(loader bodies, `module.activate()`, `module.get_api()`, pip installs)
is supplied by an environment.  The model is single-threaded, so the
`_wait_for_module_state` branches observe no state change and time out,
exactly as a lone caller would. -/

inductive ModuleState where
  | unloaded
  | loading
  | loaded
  | activating
  | activated
  | failed
deriving DecidableEq, Repr

/-- Metadata-bearing module object (`Module` with `ModuleMetadata`). -/
structure ModuleData where
  id : String
  dependencies : List String := []
  pythonDependencies : List String := []
deriving DecidableEq, Repr

/-- Translation of `ModuleInstance`. -/
structure ModuleInstance where
  moduleId : String
  module : Option ModuleData := none
  state : ModuleState := .unloaded
  error : Option String := none
  loadAttempts : Nat := 0
deriving DecidableEq, Repr

/-- Manager state: the `_modules` dict. -/
def MMState : Type := List (String × ModuleInstance)

/-- Outcomes of the external calls the manager makes.  A loader entry is
`none` when no loader is registered, `some none` when the loader raises
or times out, `some (some m)` when it returns module `m`. -/
structure ModuleEnv where
  syncLoader : String → Option (Option ModuleData)
  asyncLoader : String → Option (Option ModuleData)
  activateOutcome : String → Bool
  pipInstallOk : String → Bool
  getApiOutcome : String → Option Unit

def maxRetries : Nat := 3

def newInstance (mid : String) : ModuleInstance := { moduleId := mid }

/-- Record a failure on a module (state → Failed plus error message). -/
def setFailure (st : MMState) (mid : String) (msg : String) : MMState :=
  match alookup st mid with
  | none => st
  | some i => ainsert st mid { i with state := .failed, error := some msg }

/-- Translation of `ModuleManager.load_module` (lines 167-247): create
the record if needed, short-circuit on already-loaded or in-progress
states, respect the retry cap, then run the sync or async loader under
the load timeout; failure or timeout marks the record Failed. -/
def loadModule (env : ModuleEnv) (st : MMState) (mid : String) :
    Option ModuleData × MMState :=
  let st0 := if (alookup st mid).isSome then st else ainsert st mid (newInstance mid)
  match alookup st0 mid with
  | none => (none, st0)
  | some inst =>
    if inst.state = .loaded ∨ inst.state = .activated ∨ inst.state = .activating then
      (inst.module, st0)
    else if inst.state = .loading then
      (none, st0)
    else if maxRetries ≤ inst.loadAttempts then
      (none, ainsert st0 mid { inst with state := .failed })
    else
      let inst1 : ModuleInstance :=
        { inst with state := .loading, loadAttempts := inst.loadAttempts + 1 }
      match env.syncLoader mid with
      | some (some m) =>
        (some m, ainsert st0 mid { inst1 with module := some m, state := .loaded })
      | some none =>
        (none, ainsert st0 mid
          { inst1 with state := .failed, error := some "load failed" })
      | none =>
        match env.asyncLoader mid with
        | some (some m) =>
          (some m, ainsert st0 mid { inst1 with module := some m, state := .loaded })
        | some none =>
          (none, ainsert st0 mid
            { inst1 with state := .failed, error := some "load failed" })
        | none =>
          (none, ainsert st0 mid
            { inst1 with state := .failed, error := some "Module loader not found" })

/-- Translation of `ModuleManager._validate_dependencies`: every
declared dependency must exist and be in neither Failed, Loading nor
Activating state. -/
def validateDependencies (st : MMState) (m : ModuleData) : Bool :=
  m.dependencies.all (fun d =>
    match alookup st d with
    | none => false
    | some di =>
      !(di.state = .failed || di.state = .loading || di.state = .activating))

mutual

/-- Translation of `ModuleManager.activate_module` (lines 249-329).
The fuel argument bounds the dependency recursion depth (the Python
code recurses unboundedly; fuel 0 corresponds to a stack overflow and
returns failure without touching state). -/
def activateModule (env : ModuleEnv) :
    Nat → MMState → String → Bool × MMState
  | 0, st, _ => (false, st)
  | Nat.succ fuel, st, mid =>
    match alookup st mid with
    | none => (false, st)
    | some inst =>
      if inst.state = .activated then (true, st)
      else if inst.state = .activating then (false, st)
      else
        let pr :=
          if inst.state ≠ .loaded then
            let lr := loadModule env st mid
            (lr.1.isSome, lr.2)
          else (true, st)
        if pr.1 = false then (false, pr.2)
        else
          match alookup pr.2 mid with
          | none => (false, pr.2)
          | some inst1 =>
            let st1 := ainsert pr.2 mid { inst1 with state := .activating }
            match inst1.module with
            | none => (false, setFailure st1 mid "Module instance is None")
            | some m =>
              if validateDependencies st1 m = false then
                (false, setFailure st1 mid "Dependency validation failed")
              else
                match activateDeps env fuel m.dependencies st1 with
                | (false, st2) =>
                  (false, setFailure st2 mid "Dependency activation failed")
                | (true, st2) =>
                  if m.pythonDependencies ≠ [] ∧ env.pipInstallOk mid = false then
                    (false, setFailure st2 mid "pip install failed")
                  else if env.activateOutcome mid then
                    (true,
                      match alookup st2 mid with
                      | none => st2
                      | some i => ainsert st2 mid { i with state := .activated })
                  else
                    (false, setFailure st2 mid "Activation failed")

/-- Dependency loop of `activate_module`: activate each declared
dependency in order, stopping at the first failure. -/
def activateDeps (env : ModuleEnv) :
    Nat → List String → MMState → Bool × MMState
  | _, [], st => (true, st)
  | fuel, d :: rest, st =>
    match activateModule env fuel st d with
    | (false, st1) => (false, st1)
    | (true, st1) => activateDeps env fuel rest st1

end

/-- Translation of `ModuleManager.get_module_api` (lines 418-441): null
unless the record exists, holds a module object and is Activated; a
raising `get_api` also yields null. -/
def getModuleApi (env : ModuleEnv) (st : MMState) (mid : String) : Option Unit :=
  match alookup st mid with
  | none => none
  | some inst =>
    match inst.module with
    | none => none
    | some _ =>
      if inst.state ≠ .activated then none
      else env.getApiOutcome mid

theorem alookup_setFailure_self (st : MMState) (mid msg : String)
    (i : ModuleInstance) (h : alookup st mid = some i) :
    alookup (setFailure st mid msg) mid =
      some { i with state := .failed, error := some msg } := by
  unfold setFailure
  rw [h]
  exact alookup_eq_some_of_mem_ainsert st mid _

theorem alookup_setFailure_ne (st : MMState) (mid msg k : String)
    (h : mid ≠ k) :
    alookup (setFailure st mid msg) k = alookup st k := by
  unfold setFailure
  cases hq : alookup st mid with
  | none => rfl
  | some i => rw [alookup_ainsert_ne _ mid k _ h]

theorem activate_loaded_noDeps_fail (env : ModuleEnv) (fuel : Nat)
    (st : MMState) (mid : String) (inst : ModuleInstance) (m : ModuleData)
    (h : alookup st mid = some inst) (hs : inst.state = .loaded)
    (hm : inst.module = some m) (hd : m.dependencies = [])
    (hpd : m.pythonDependencies = [])
    (hact : env.activateOutcome mid = false) :
    activateModule env (Nat.succ fuel) st mid =
      (false, setFailure (ainsert st mid { inst with state := .activating })
        mid "Activation failed") := by
  simp only [activateModule]
  simp [h, hs, hm, hd, hpd, hact, activateDeps, validateDependencies]

/-- Full symbolic run for the two-module scenario: P Loaded depends on
Q Loaded, and Q's activate callable raises. -/
theorem activate_dep_fail_run (env : ModuleEnv) (st : MMState)
    (P Q : String) (instP instQ : ModuleInstance) (mP mQ : ModuleData)
    (fuel : Nat) (hPQ : P ≠ Q)
    (hP : alookup st P = some instP) (hPs : instP.state = .loaded)
    (hPm : instP.module = some mP) (hPd : mP.dependencies = [Q])
    (hQ : alookup st Q = some instQ) (hQs : instQ.state = .loaded)
    (hQm : instQ.module = some mQ) (hQd : mQ.dependencies = [])
    (hQpd : mQ.pythonDependencies = [])
    (hQact : env.activateOutcome Q = false) :
    (activateModule env (fuel + 2) st P).1 = false ∧
    alookup (activateModule env (fuel + 2) st P).2 P =
      some { instP with
        state := .failed, error := some "Dependency activation failed" } ∧
    getModuleApi env (activateModule env (fuel + 2) st P).2 P = none := by
  have hQP : Q ≠ P := fun hEq => hPQ hEq.symm
  have hA : alookup
      (ainsert st P { instP with module := some mP, state := .activating }) Q =
      some instQ := by
    rw [alookup_ainsert_ne st P Q _ hPQ, hQ]
  have hQcall := activate_loaded_noDeps_fail env fuel
    (ainsert st P { instP with module := some mP, state := .activating })
    Q instQ mQ hA hQs hQm hQd hQpd hQact
  have hval : validateDependencies
      (ainsert st P { instP with module := some mP, state := .activating })
      mP = true := by
    simp [validateDependencies, hPd, hA, hQs]
  have hDeps : activateDeps env (fuel + 1) mP.dependencies
      (ainsert st P { instP with module := some mP, state := .activating }) =
      (false, setFailure
        (ainsert
          (ainsert st P { instP with module := some mP, state := .activating })
          Q { instQ with state := .activating }) Q "Activation failed") := by
    rw [hPd]
    simp only [activateDeps]
    rw [show fuel + 1 = Nat.succ fuel from rfl, hQcall]
  have hMain : activateModule env (fuel + 2) st P =
      (false, setFailure
        (setFailure
          (ainsert
            (ainsert st P
              { instP with module := some mP, state := .activating })
            Q { instQ with state := .activating }) Q "Activation failed")
        P "Dependency activation failed") := by
    rw [show fuel + 2 = Nat.succ (fuel + 1) from rfl]
    simp only [activateModule]
    simp [hP, hPs, hPm, hval, hDeps]
  have hPA : alookup
      (ainsert st P { instP with module := some mP, state := .activating }) P =
      some { instP with module := some mP, state := .activating } :=
    alookup_eq_some_of_mem_ainsert st P _
  have hPB : alookup
      (ainsert
        (ainsert st P { instP with module := some mP, state := .activating })
        Q { instQ with state := .activating }) P =
      some { instP with module := some mP, state := .activating } := by
    rw [alookup_ainsert_ne _ Q P _ hQP]
    exact hPA
  have hPC : alookup (setFailure
      (ainsert
        (ainsert st P { instP with module := some mP, state := .activating })
        Q { instQ with state := .activating }) Q "Activation failed") P =
      some { instP with module := some mP, state := .activating } := by
    rw [alookup_setFailure_ne _ Q _ P hQP]
    exact hPB
  have hPD : alookup (setFailure
      (setFailure
        (ainsert
          (ainsert st P { instP with module := some mP, state := .activating })
          Q { instQ with state := .activating }) Q "Activation failed")
      P "Dependency activation failed") P =
      some { instP with
        module := some mP, state := .failed,
        error := some "Dependency activation failed" } :=
    alookup_setFailure_self _ P _ _ hPC
  refine ⟨by rw [hMain], ?_, ?_⟩
  · rw [hMain, ← hPm]
    rw [← hPm] at hPD
    exact hPD
  · rw [hMain]
    simp [getModuleApi, hPD]

/-! ## Graph execution and rollback (`src/core/graph_executor.py`)

Model of the synchronous `GraphExecutor.execute_graph` /
`_rollback_nodes` / `_resolve_node_inputs` (lines 107-192, 401-477).
Node executors and rollback registration live in the registry
(`get_node_function` / `get_node_rollback_function`), modelled by an
environment.  Notes on fidelity:

* `update_node_outputs` mutates the graph's node objects, but nothing
  in this flow reads a node's `outputs` field — resolution and rollback
  read the `results` dict — so the graph is not threaded.
* The `condition` special case (lines 133-158) performs exactly the
  same steps as the generic path (its computed `condition_value` is
  unused), and `loop_start` / `loop_end` (lines 161-164) fall through
  to the generic path, so all node types take one path here.
* On failure, Python rolls back and re-raises the original exception;
  the model returns an `ExecFailure` record carrying the original
  error, the local state at the `except` block, and the rollback
  cascade's outcome. -/

/-- If `l` starts with `sep`, return the remainder after `sep`. -/
def stripSep : List Char → List Char → Option (List Char)
  | [], l => some l
  | _ :: _, [] => none
  | c :: cs, d :: ds => if c = d then stripSep cs ds else none

/-- Fuel-driven splitting of a character list on a non-empty separator,
left to right and non-overlapping, as Python's `str.split(sep)` does.
The fuel only bounds the recursion; input length plus one is always
enough. -/
def splitOnFuel (sep : List Char) : Nat → List Char → List Char →
    List (List Char)
  | 0, l, acc => [acc.reverse ++ l]
  | Nat.succ _, [], acc => [acc.reverse]
  | Nat.succ fuel, c :: cs, acc =>
    match stripSep sep (c :: cs) with
    | some rest => acc.reverse :: splitOnFuel sep fuel rest []
    | none => splitOnFuel sep fuel cs (c :: acc)

/-- Python `s.split(sep)` for a non-empty separator. -/
def pySplit (s sep : String) : List String :=
  (splitOnFuel sep.data (s.data.length + 1) s.data []).map
    (fun l => String.mk l)

/-- Split of a `$ref` string on `".outputs."`: the Python unpacking
`source_node_id, source_output = ref_str.split(".outputs.")` succeeds
iff the split yields exactly two parts. -/
def splitRef (r : String) : Option (String × String) :=
  match pySplit r ".outputs." with
  | [s, o] => some (s, o)
  | _ => none

/-- Resolution of one input binding against the results dict
(loop body of `_resolve_node_inputs`). -/
def resolveInput (results : List (String × List (String × Value)))
    (v : Value) : Except PyErr Value :=
  match v with
  | .vref r =>
    match splitRef r with
    | none =>
      .error (.valueError ("Invalid reference format: " ++ r ++
        ". Expected format: node_id.outputs.output_name"))
    | some (src, out) =>
      match alookup results src with
      | none =>
        .error (.runtimeError ("Source node " ++ src ++ " not yet executed"))
      | some outs =>
        match alookup outs out with
        | none =>
          .error (.valueError ("Output " ++ out ++ " not found in node " ++ src))
        | some x => .ok x
  | v => .ok v

/-- Translation of `GraphExecutor._resolve_node_inputs`: resolve the
bindings in order; the first failing binding raises. -/
def resolveNodeInputs (inputs : List (String × Value))
    (results : List (String × List (String × Value))) :
    Except PyErr (List (String × Value)) :=
  match inputs with
  | [] => .ok []
  | (k, v) :: rest =>
    match resolveInput results v with
    | .error e => .error e
    | .ok x =>
      match resolveNodeInputs rest results with
      | .error e => .error e
      | .ok tail => .ok ((k, x) :: tail)

/-- Registry-supplied executable behaviour: `nodeFunc` is
`get_node_function` (an executor returns its outputs or raises with a
message), `nodeRollback` is whether `get_node_rollback_function` finds
a rollback callable for the type. -/
structure ExecEnv where
  nodeFunc : String →
    Option (List (String × Value) → Except String (List (String × Value)))
  nodeRollback : String → Bool

/-- One recorded invocation of a rollback callable
(`rollback_func(inputs=input_values, outputs=output_values)`). -/
structure RollbackCall where
  nodeId : String
  inputs : List (String × Value)
  outputs : List (String × Value)
deriving DecidableEq, Repr

/-- Loop of `GraphExecutor._rollback_nodes` over an already-reversed
node list: skip nodes without a record or without a rollback callable,
re-resolve the node's inputs (a raise here propagates — it is outside
the `try`), read the recorded outputs with default `{}`, and invoke the
rollback callable (whose own exceptions are logged and swallowed, so
the invocation is recorded unconditionally). -/
def rollbackLoop (env : ExecEnv) (g : Graph)
    (results : List (String × List (String × Value))) :
    List String → Except PyErr (List RollbackCall)
  | [] => .ok []
  | nid :: rest =>
    match g.getNode nid with
    | none => rollbackLoop env g results rest
    | some node =>
      if env.nodeRollback node.type = false then
        rollbackLoop env g results rest
      else
        match resolveNodeInputs node.inputs results with
        | .error e => .error e
        | .ok ins =>
          match rollbackLoop env g results rest with
          | .error e => .error e
          | .ok tail =>
            .ok ({ nodeId := nid, inputs := ins,
                   outputs := (alookup results nid).getD [] } :: tail)

/-- Translation of `GraphExecutor._rollback_nodes`: walk the executed
nodes in reverse completion order. -/
def rollbackNodes (env : ExecEnv) (g : Graph) (executed : List String)
    (results : List (String × List (String × Value))) :
    Except PyErr (List RollbackCall) :=
  rollbackLoop env g results executed.reverse

/-- Intermediate state of `execute_graph`: the `results` dict and the
`executed_nodes` list (completion order). -/
structure ExecState where
  results : List (String × List (String × Value)) := []
  executed : List String := []
deriving DecidableEq, Repr

/-- Failure record of an execution: the original error, the node at
which it occurred, the local state at the `except` block, and the
outcome of the rollback cascade performed there. -/
structure ExecFailure where
  error : PyErr
  failedNode : String
  results : List (String × List (String × Value))
  executed : List String
  rollback : Except PyErr (List RollbackCall)
deriving Repr

def mkFailure (env : ExecEnv) (g : Graph) (nid : String) (e : PyErr)
    (s : ExecState) : ExecFailure :=
  { error := e, failedNode := nid, results := s.results,
    executed := s.executed,
    rollback := rollbackNodes env g s.executed s.results }

/-- Body of `execute_graph`'s loop for one node of the topological
order: missing nodes are skipped; input resolution, executor lookup and
executor invocation each raise into the `except` block, which rolls
back and re-raises; success records the outputs and appends the node to
the completion order. -/
def execOneNode (env : ExecEnv) (g : Graph) (nid : String) (s : ExecState) :
    Except ExecFailure ExecState :=
  match g.getNode nid with
  | none => .ok s
  | some node =>
    match resolveNodeInputs node.inputs s.results with
    | .error e => .error (mkFailure env g nid e s)
    | .ok ins =>
      match env.nodeFunc node.type with
      | none =>
        .error (mkFailure env g nid
          (.valueError ("Node function not found for type: " ++ node.type)) s)
      | some f =>
        match f ins with
        | .error msg =>
          .error (mkFailure env g nid
            (.runtimeError ("Error executing node " ++ nid ++ " of type " ++
              node.type ++ ": " ++ msg)) s)
        | .ok outs =>
          .ok { results := ainsert s.results nid outs,
                executed := s.executed ++ [nid] }

/-- The loop of `execute_graph` over the topological order. -/
def runNodesSt (env : ExecEnv) (g : Graph) :
    List String → ExecState → Except ExecFailure ExecState
  | [], s => .ok s
  | nid :: rest, s =>
    match execOneNode env g nid s with
    | .ok s1 => runNodesSt env g rest s1
    | .error f => .error f

/-- Translation of `GraphExecutor.execute_graph` given the topological
order produced in its first step: run every node from the empty state;
on success return the results dict, on failure surface the original
error after the rollback cascade. -/
def executeGraphOrdered (env : ExecEnv) (g : Graph) (order : List String) :
    Except ExecFailure (List (String × List (String × Value))) :=
  match runNodesSt env g order {} with
  | .ok s => .ok s.results
  | .error f => .error f

/-! ### Lemmas about execution and rollback -/

/-- One results dict extends another: every recorded entry persists. -/
def ResultsExtends (res res' : List (String × List (String × Value))) : Prop :=
  ∀ k v, alookup res k = some v → alookup res' k = some v

theorem resolveInput_mono (res res' : List (String × List (String × Value)))
    (h : ResultsExtends res res') (v x : Value)
    (hok : resolveInput res v = .ok x) : resolveInput res' v = .ok x := by
  cases v with
  | vref r =>
    simp only [resolveInput] at hok ⊢
    revert hok
    cases hs : splitRef r with
    | none => intro hok; cases hok
    | some p =>
      obtain ⟨src, out⟩ := p
      dsimp only
      cases hl : alookup res src with
      | none => intro hok; cases hok
      | some outs =>
        rw [h src outs hl]
        intro hok
        exact hok
  | vstr s => exact hok
  | vint n => exact hok
  | vbool b => exact hok

theorem resolveNodeInputs_mono (res res' : List (String × List (String × Value)))
    (h : ResultsExtends res res') :
    ∀ (inputs : List (String × Value)) ins,
      resolveNodeInputs inputs res = .ok ins →
      resolveNodeInputs inputs res' = .ok ins := by
  intro inputs
  induction inputs with
  | nil => intro ins h0; exact h0
  | cons kv rest ih =>
    intro ins h0
    obtain ⟨k, v⟩ := kv
    unfold resolveNodeInputs at h0 ⊢
    cases hr : resolveInput res v with
    | error e => rw [hr] at h0; cases h0
    | ok x =>
      rw [hr] at h0
      rw [resolveInput_mono res res' h v x hr]
      cases ht : resolveNodeInputs rest res with
      | error e => rw [ht] at h0; cases h0
      | ok tail =>
        rw [ht] at h0
        rw [ih tail ht]
        exact h0

theorem resultsExtends_ainsert (res : List (String × List (String × Value)))
    (nid : String) (outs : List (String × Value))
    (h : alookup res nid = none) : ResultsExtends res (ainsert res nid outs) := by
  intro k v hk
  by_cases hkn : nid = k
  · subst hkn; rw [h] at hk; cases hk
  · rw [alookup_ainsert_ne res nid k outs hkn]; exact hk

/-- Every node of the completion order was genuinely completed: it
exists in the graph, its inputs resolve against the results dict, its
executor exists and produced exactly the recorded outputs. -/
def CompletedOk (env : ExecEnv) (g : Graph)
    (results : List (String × List (String × Value)))
    (executed : List String) : Prop :=
  ∀ nid ∈ executed, ∃ node ins outs f,
    g.getNode nid = some node ∧
    resolveNodeInputs node.inputs results = .ok ins ∧
    env.nodeFunc node.type = some f ∧
    f ins = .ok outs ∧
    alookup results nid = some outs

/-- The results dict only records completed nodes. -/
def ResultsBound (results : List (String × List (String × Value)))
    (executed : List String) : Prop :=
  ∀ k v, alookup results k = some v → k ∈ executed

theorem execOneNode_ok_inv (env : ExecEnv) (g : Graph) (nid : String)
    (s s1 : ExecState) (hstep : execOneNode env g nid s = .ok s1)
    (hco : CompletedOk env g s.results s.executed)
    (hrb : ResultsBound s.results s.executed)
    (hfresh : nid ∉ s.executed) :
    CompletedOk env g s1.results s1.executed ∧
    ResultsBound s1.results s1.executed ∧
    (∀ x ∈ s1.executed, x ∈ s.executed ∨ x = nid) := by
  unfold execOneNode at hstep
  revert hstep
  cases hn : g.getNode nid with
  | none =>
    intro hstep
    cases hstep
    exact ⟨hco, hrb, fun x hx => Or.inl hx⟩
  | some node =>
    dsimp only
    cases hres : resolveNodeInputs node.inputs s.results with
    | error e => intro hstep; cases hstep
    | ok ins =>
      dsimp only
      cases hf : env.nodeFunc node.type with
      | none => intro hstep; cases hstep
      | some f =>
        dsimp only
        cases hout : f ins with
        | error msg => intro hstep; cases hstep
        | ok outs =>
          intro hstep
          cases hstep
          have hnone : alookup s.results nid = none := by
            cases hl : alookup s.results nid with
            | none => rfl
            | some v => exact absurd (hrb nid v hl) hfresh
          have hext : ResultsExtends s.results (ainsert s.results nid outs) :=
            resultsExtends_ainsert s.results nid outs hnone
          refine ⟨?_, ?_, ?_⟩
          · intro x hx
            rcases List.mem_append.mp hx with hx | hx
            · obtain ⟨nd, i0, o0, f0, h1, h2, h3, h4, h5⟩ := hco x hx
              exact ⟨nd, i0, o0, f0, h1,
                resolveNodeInputs_mono _ _ hext _ _ h2, h3, h4, hext x o0 h5⟩
            · have hx2 := List.mem_singleton.mp hx
              subst hx2
              exact ⟨node, ins, outs, f, hn,
                resolveNodeInputs_mono _ _ hext _ _ hres, hf, hout,
                alookup_eq_some_of_mem_ainsert s.results x outs⟩
          · intro k v hk
            by_cases hkn : nid = k
            · subst hkn; exact List.mem_append.mpr (Or.inr (by simp))
            · rw [alookup_ainsert_ne s.results nid k outs hkn] at hk
              exact List.mem_append.mpr (Or.inl (hrb k v hk))
          · intro x hx
            rcases List.mem_append.mp hx with hx | hx
            · exact Or.inl hx
            · exact Or.inr (List.mem_singleton.mp hx)

theorem execOneNode_error_state (env : ExecEnv) (g : Graph) (nid : String)
    (s : ExecState) (f : ExecFailure)
    (hstep : execOneNode env g nid s = .error f) :
    f.results = s.results ∧ f.executed = s.executed ∧
    f.rollback = rollbackNodes env g s.executed s.results := by
  unfold execOneNode at hstep
  revert hstep
  cases hn : g.getNode nid with
  | none => intro hstep; cases hstep
  | some node =>
    dsimp only
    cases hres : resolveNodeInputs node.inputs s.results with
    | error e =>
      intro hstep
      cases hstep
      exact ⟨rfl, rfl, rfl⟩
    | ok ins =>
      dsimp only
      cases hf : env.nodeFunc node.type with
      | none =>
        intro hstep
        cases hstep
        exact ⟨rfl, rfl, rfl⟩
      | some fexec =>
        dsimp only
        cases hout : fexec ins with
        | error msg =>
          intro hstep
          cases hstep
          exact ⟨rfl, rfl, rfl⟩
        | ok outs => intro hstep; cases hstep

theorem runNodesSt_error_inv (env : ExecEnv) (g : Graph) :
    ∀ (order : List String) (s : ExecState) (f : ExecFailure),
      order.Nodup → (∀ nid ∈ order, nid ∉ s.executed) →
      CompletedOk env g s.results s.executed →
      ResultsBound s.results s.executed →
      runNodesSt env g order s = .error f →
      CompletedOk env g f.results f.executed ∧
      f.rollback = rollbackNodes env g f.executed f.results := by
  intro order
  induction order with
  | nil => intro s f _ _ _ _ h; cases h
  | cons nid rest ih =>
    intro s f hnd hdisj hco hrb hrun
    simp only [runNodesSt] at hrun
    revert hrun
    cases hstep : execOneNode env g nid s with
    | error f0 =>
      intro hrun
      cases hrun
      obtain ⟨h1, h2, h3⟩ := execOneNode_error_state env g nid s f hstep
      refine ⟨?_, ?_⟩
      · rw [h1, h2]; exact hco
      · rw [h3, h1, h2]
    | ok s1 =>
      intro hrun
      have hfresh : nid ∉ s.executed := hdisj nid (List.mem_cons_self nid rest)
      obtain ⟨hco1, hrb1, hsub⟩ :=
        execOneNode_ok_inv env g nid s s1 hstep hco hrb hfresh
      refine ih s1 f (List.Nodup.of_cons hnd) ?_ hco1 hrb1 hrun
      intro x hx hx1
      rcases hsub x hx1 with hmem | rfl
      · exact hdisj x (List.mem_cons_of_mem nid hx) hmem
      · exact (List.nodup_cons.mp hnd).1 hx

theorem rollbackLoop_ok (env : ExecEnv) (g : Graph)
    (results : List (String × List (String × Value))) :
    ∀ lst : List String,
      (∀ nid ∈ lst, ∃ node ins outs f,
        g.getNode nid = some node ∧
        resolveNodeInputs node.inputs results = .ok ins ∧
        env.nodeFunc node.type = some f ∧
        f ins = .ok outs ∧
        alookup results nid = some outs) →
      ∃ calls, rollbackLoop env g results lst = .ok calls ∧
        calls.map RollbackCall.nodeId = lst.filter (fun nid =>
          match g.getNode nid with
          | some node => env.nodeRollback node.type
          | none => false) ∧
        ∀ c ∈ calls, ∃ node fexec,
          g.getNode c.nodeId = some node ∧
          resolveNodeInputs node.inputs results = .ok c.inputs ∧
          env.nodeFunc node.type = some fexec ∧
          fexec c.inputs = .ok c.outputs ∧
          alookup results c.nodeId = some c.outputs := by
  intro lst
  induction lst with
  | nil =>
    intro _
    exact ⟨[], rfl, rfl, fun c hc => absurd hc (List.not_mem_nil c)⟩
  | cons nid rest ih =>
    intro hprop
    obtain ⟨node, ins, outs, f, h1, h2, h3, h4, h5⟩ :=
      hprop nid (List.mem_cons_self nid rest)
    obtain ⟨tail, ht1, ht2, ht3⟩ :=
      ih (fun x hx => hprop x (List.mem_cons_of_mem nid hx))
    by_cases hrb : env.nodeRollback node.type = false
    · refine ⟨tail, ?_, ?_, ht3⟩
      · simp only [rollbackLoop, h1]
        rw [if_pos hrb]
        exact ht1
      · rw [ht2, List.filter_cons]
        rw [show (match g.getNode nid with
            | some node => env.nodeRollback node.type
            | none => false) = false from by rw [h1]; exact hrb]
        simp
    · have hrbt : env.nodeRollback node.type = true := by
        cases hb : env.nodeRollback node.type
        · exact absurd hb hrb
        · rfl
      refine ⟨{ nodeId := nid, inputs := ins,
                outputs := (alookup results nid).getD [] } :: tail, ?_, ?_, ?_⟩
      · simp only [rollbackLoop, h1]
        rw [if_neg hrb]
        simp only [h2, ht1]
      · rw [List.map_cons, ht2, List.filter_cons]
        rw [show (match g.getNode nid with
            | some node => env.nodeRollback node.type
            | none => false) = true from by rw [h1]; exact hrbt]
        simp
      · intro c hc
        rcases List.mem_cons.mp hc with rfl | hc
        · exact ⟨node, f, h1, by rw [h5]; exact h2, h3, by rw [h5]; exact h4,
            by rw [h5]; rfl⟩
        · exact ht3 c hc

/-- C4: when a node's executor raises during an execution, the rollback
cascade succeeds and invokes the rollback callable of exactly the
already-completed nodes that have one, in the exact reverse of
completion order, passing each node its resolved inputs (the very
inputs its executor received, as witnessed by the executor equation)
and its recorded outputs; the original failure record is surfaced to
the caller as the returned error. -/
theorem C4_rollback_reverse_completion (env : ExecEnv) (g : Graph)
    (order : List String) (f : ExecFailure) (hnd : order.Nodup)
    (hrun : runNodesSt env g order {} = .error f) :
    ∃ calls, f.rollback = .ok calls ∧
      calls.map RollbackCall.nodeId = f.executed.reverse.filter (fun nid =>
        match g.getNode nid with
        | some node => env.nodeRollback node.type
        | none => false) ∧
      ∀ c ∈ calls, ∃ node fexec,
        g.getNode c.nodeId = some node ∧
        resolveNodeInputs node.inputs f.results = .ok c.inputs ∧
        env.nodeFunc node.type = some fexec ∧
        fexec c.inputs = .ok c.outputs ∧
        alookup f.results c.nodeId = some c.outputs := by
  obtain ⟨hco, hrbk⟩ := runNodesSt_error_inv env g order {} f hnd
    (fun nid _ hmem => absurd hmem (List.not_mem_nil nid))
    (fun nid hmem => absurd hmem (List.not_mem_nil nid))
    (fun k v hk => by cases hk)
    hrun
  obtain ⟨calls, h1, h2, h3⟩ := rollbackLoop_ok env g f.results
    f.executed.reverse
    (fun nid hmem => hco nid (List.mem_reverse.mp hmem))
  exact ⟨calls, by rw [hrbk]; exact h1, h2, h3⟩

theorem runNodesSt_append (env : ExecEnv) (g : Graph) (l1 l2 : List String) :
    ∀ s : ExecState, runNodesSt env g (l1 ++ l2) s =
      (match runNodesSt env g l1 s with
       | .ok s1 => runNodesSt env g l2 s1
       | .error f => .error f) := by
  induction l1 with
  | nil => intro s; rfl
  | cons nid rest ih =>
    intro s
    rw [List.cons_append]
    cases hstep : execOneNode env g nid s with
    | ok s1 =>
      simp only [runNodesSt, hstep]
      exact ih s1
    | error f0 =>
      simp only [runNodesSt, hstep]

/-- C5: a reference naming an output absent from the referenced source
node's recorded outputs makes input resolution raise the
unresolved-output `ValueError`; any failing binding fails the node's
whole resolution; and when that happens during an execution the run
fails at that node, surfacing the resolution error, and the rollback
cascade over the already-completed nodes is triggered. -/
theorem C5_unresolved_reference :
    (∀ (results : List (String × List (String × Value))) (r src out : String)
        (outs : List (String × Value)),
        splitRef r = some (src, out) → alookup results src = some outs →
        alookup outs out = none →
        resolveInput results (Value.vref r) =
          .error (.valueError ("Output " ++ out ++ " not found in node " ++ src))) ∧
    (∀ (inputs : List (String × Value))
        (results : List (String × List (String × Value))) (k : String)
        (v : Value) (e : PyErr),
        (k, v) ∈ inputs → resolveInput results v = .error e →
        ∃ e2, resolveNodeInputs inputs results = .error e2) ∧
    (∀ (env : ExecEnv) (g : Graph) (done : List String) (nid : String)
        (rest : List String) (s : ExecState) (node : Node) (e : PyErr),
        runNodesSt env g done {} = .ok s →
        g.getNode nid = some node →
        resolveNodeInputs node.inputs s.results = .error e →
        runNodesSt env g (done ++ nid :: rest) {} =
          .error { error := e, failedNode := nid, results := s.results,
                   executed := s.executed,
                   rollback := rollbackNodes env g s.executed s.results }) := by
  refine ⟨?_, ?_, ?_⟩
  · intro results r src out outs hsplit hsrc hout
    simp only [resolveInput]
    rw [hsplit]
    dsimp only
    rw [hsrc]
    dsimp only
    rw [hout]
  · intro inputs
    induction inputs with
    | nil => intro results k v e hmem; cases hmem
    | cons kv rest ih =>
      intro results k v e hmem hres
      obtain ⟨k0, v0⟩ := kv
      rcases List.mem_cons.mp hmem with heq | hmem2
      · cases heq
        refine ⟨e, ?_⟩
        unfold resolveNodeInputs
        rw [hres]
      · cases hr0 : resolveInput results v0 with
        | error e0 =>
          refine ⟨e0, ?_⟩
          unfold resolveNodeInputs
          rw [hr0]
        | ok x0 =>
          obtain ⟨e2, he2⟩ := ih results k v e hmem2 hres
          refine ⟨e2, ?_⟩
          unfold resolveNodeInputs
          rw [hr0, he2]
  · intro env g done nid rest s node e hdone hnode hres
    have hone : execOneNode env g nid s = .error (mkFailure env g nid e s) := by
      simp only [execOneNode, hnode, hres]
    rw [runNodesSt_append env g done (nid :: rest) {}]
    rw [hdone]
    dsimp only
    simp only [runNodesSt, hone]
    rfl

/-- Concrete registry behaviour for the execution witnesses: type `tA`
computes output `v = 7` and has a rollback callable; type `tB` raises. -/
def c4env : ExecEnv :=
  { nodeFunc := fun t =>
      if t = "tA" then some (fun _ => .ok [("v", .vint 7)])
      else if t = "tB" then some (fun _ => .error "boom")
      else none,
    nodeRollback := fun t => t == "tA" }

def c4graph : Graph :=
  { nodes := [("a", { id := "a", type := "tA", inputs := [] }),
              ("b", { id := "b", type := "tB",
                      inputs := [("x", Value.vref "a.outputs.v")] })],
    edges := [] }

/-- Witness for C4: in the two-node chain where `b` raises after `a`
completed, the failure record's rollback cascade succeeds and invokes
exactly `a`'s rollback. -/
theorem C4_witness :
    ∃ f, runNodesSt c4env c4graph ["a", "b"] {} = .error f ∧
      ∃ calls, f.rollback = .ok calls ∧
        calls.map RollbackCall.nodeId = ["a"] := by
  refine ⟨_, rfl, ?_⟩
  obtain ⟨calls, h1, h2, h3⟩ :=
    C4_rollback_reverse_completion c4env c4graph ["a", "b"] _ (by decide) rfl
  refine ⟨calls, h1, ?_⟩
  rw [h2]
  rfl

def c5graph : Graph :=
  { nodes := [("a", { id := "a", type := "tA", inputs := [] }),
              ("b", { id := "b", type := "tB",
                      inputs := [("x", Value.vref "a.outputs.missing")] })],
    edges := [] }

/-- Witness for C5: node `b` references output `missing` of the
executed node `a`, which recorded only output `v`; the run fails there
with the unresolved-output error and the rollback cascade over the
completed prefix. -/
theorem C5_witness :
    runNodesSt c4env c5graph (["a"] ++ "b" :: []) {} =
      .error { error := .valueError "Output missing not found in node a",
               failedNode := "b",
               results := [("a", [("v", Value.vint 7)])],
               executed := ["a"],
               rollback := rollbackNodes c4env c5graph ["a"]
                 [("a", [("v", Value.vint 7)])] } :=
  C5_unresolved_reference.2.2 c4env c5graph ["a"] "b" []
    { results := [("a", [("v", Value.vint 7)])], executed := ["a"] }
    { id := "b", type := "tB",
      inputs := [("x", Value.vref "a.outputs.missing")] }
    (.valueError "Output missing not found in node a")
    rfl rfl rfl

/-- C6 amended: when module P declares a dependency on module Q (both
registered and Loaded) and Q's activate callable raises, `activate(P)`
returns false, P's state becomes Failed — not Loaded — and
`get_module_api(P)` returns null. -/
theorem C6_dependency_failure (env : ModuleEnv) (st : MMState)
    (P Q : String) (instP instQ : ModuleInstance) (mP mQ : ModuleData)
    (fuel : Nat) (hPQ : P ≠ Q)
    (hP : alookup st P = some instP) (hPs : instP.state = .loaded)
    (hPm : instP.module = some mP) (hPd : mP.dependencies = [Q])
    (hQ : alookup st Q = some instQ) (hQs : instQ.state = .loaded)
    (hQm : instQ.module = some mQ) (hQd : mQ.dependencies = [])
    (hQpd : mQ.pythonDependencies = [])
    (hQact : env.activateOutcome Q = false) :
    ∃ st' i, activateModule env (fuel + 2) st P = (false, st') ∧
      alookup st' P = some i ∧ i.state = .failed ∧ i.state ≠ .loaded ∧
      getModuleApi env st' P = none := by
  obtain ⟨h1, h2, h3⟩ := activate_dep_fail_run env st P Q instP instQ mP mQ
    fuel hPQ hP hPs hPm hPd hQ hQs hQm hQd hQpd hQact
  refine ⟨(activateModule env (fuel + 2) st P).2,
    { instP with
      state := .failed, error := some "Dependency activation failed" },
    ?_, h2, rfl, ?_, h3⟩
  · cases hr : activateModule env (fuel + 2) st P with
    | mk b s =>
      rw [hr] at h1
      cases h1
      rfl
  · intro hcontra
    cases hcontra

/-- C6 counterexample inputs: P (Loaded) depends on Q (Loaded), whose
activate callable raises. -/
def c6env : ModuleEnv :=
  { syncLoader := fun _ => none, asyncLoader := fun _ => none,
    activateOutcome := fun _ => false, pipInstallOk := fun _ => true,
    getApiOutcome := fun _ => some () }

def c6mP : ModuleData := { id := "P", dependencies := ["Q"] }

def c6mQ : ModuleData := { id := "Q" }

def c6st : MMState :=
  [("P", { moduleId := "P", module := some c6mP, state := .loaded }),
   ("Q", { moduleId := "Q", module := some c6mQ, state := .loaded })]

/-- C6 counterexample: with P Loaded and depending on the Loaded module
Q whose activate raises, `activate(P)` returns false but P's state is
Failed — not Loaded — refuting the claim that P remains Loaded. -/
theorem C6_counterexample :
    (activateModule c6env 2 c6st "P").1 = false ∧
    (alookup (activateModule c6env 2 c6st "P").2 "P").map
      ModuleInstance.state = some ModuleState.failed ∧
    ¬ (alookup (activateModule c6env 2 c6st "P").2 "P").map
      ModuleInstance.state = some ModuleState.loaded ∧
    getModuleApi c6env (activateModule c6env 2 c6st "P").2 "P" = none := by
  have h := activate_dep_fail_run c6env c6st "P" "Q"
    { moduleId := "P", module := some c6mP, state := .loaded }
    { moduleId := "Q", module := some c6mQ, state := .loaded }
    c6mP c6mQ 0 (by decide) rfl rfl rfl rfl rfl rfl rfl rfl rfl rfl
  simp only [Nat.zero_add] at h
  refine ⟨h.1, ?_, ?_, h.2.2⟩
  · rw [h.2.1]; rfl
  · rw [h.2.1]; simp

/-- Witness for C6's amended theorem at the concrete two-module state. -/
theorem C6_witness :
    ∃ st' i, activateModule c6env (0 + 2) c6st "P" = (false, st') ∧
      alookup st' "P" = some i ∧ i.state = .failed ∧ i.state ≠ .loaded ∧
      getModuleApi c6env st' "P" = none :=
  C6_dependency_failure c6env c6st "P" "Q"
    { moduleId := "P", module := some c6mP, state := .loaded }
    { moduleId := "Q", module := some c6mQ, state := .loaded }
    c6mP c6mQ 0 (by decide) rfl rfl rfl rfl rfl rfl rfl rfl rfl rfl

/-! ## Execution queue (`src/core/execution_queue.py`)

State machine of `ExecutionQueue` for one graph execution: the tasks
dict, the ready heap and the forward dependency graph.  The heap is
modelled by the multiset of task ids it contains (the `(priority,
counter)` keys only pick *which* ready task a worker pops next, so a
worker step may pop any member — a superset of the real behaviour,
which is sound for the invariant).  Python's heap holds `Task` objects;
within one graph execution task ids are distinct (`task_<node_id>`), so
looking the id up in the tasks dict is equivalent. -/

inductive TStatus where
  | pending
  | running
  | completed
  | failed
deriving DecidableEq, Repr

structure QTask where
  taskId : String
  deps : List String
  status : TStatus
deriving DecidableEq, Repr

structure QState where
  tasks : List (String × QTask)
  heap : List String
  depGraph : List (String × List String)
deriving DecidableEq, Repr

/-- The guard `all(dep in self.tasks and self.tasks[dep].status ==
TaskStatus.COMPLETED for dep in task.dependencies)` used by both
`add_task` and `_check_dependencies`. -/
def depsSatisfied (tasks : List (String × QTask)) (deps : List String) : Bool :=
  deps.all (fun d =>
    match alookup tasks d with
    | some t => t.status == .completed
    | none => false)

/-- Forward-graph update of `add_task`: append the new task's id under
each of its dependencies. -/
def addDepEdges (tid : String) :
    List (String × List String) → List String → List (String × List String)
  | dg, [] => dg
  | dg, d :: rest =>
    addDepEdges tid (ainsert dg d ((alookup dg d).getD [] ++ [tid])) rest

/-- Translation of `ExecutionQueue.add_task` (lines 85-112): register
the task, extend the forward graph, and push the task onto the heap iff
it has no dependencies or all of them are already Completed. -/
def addTask (st : QState) (tid : String) (deps : List String) : QState :=
  let tasks1 := ainsert st.tasks tid
    { taskId := tid, deps := deps, status := .pending }
  let dg1 := addDepEdges tid st.depGraph deps
  if deps = [] ∨ depsSatisfied tasks1 deps = true then
    { tasks := tasks1, heap := st.heap ++ [tid], depGraph := dg1 }
  else
    { tasks := tasks1, heap := st.heap, depGraph := dg1 }

def addTasks (st : QState) : List (String × List String) → QState
  | [] => st
  | (tid, deps) :: rest => addTasks (addTask st tid deps) rest

/-- Translation of the loop in `ExecutionQueue.start` (lines 122-127):
every task without dependencies is (re)set to Pending and pushed onto
the heap, in tasks-dict order. -/
def startPush (st : QState) : QState :=
  { st with
    tasks := st.tasks.map (fun kv =>
      if kv.2.deps = [] then (kv.1, { kv.2 with status := .pending }) else kv),
    heap := st.heap ++
      (st.tasks.filter (fun kv => kv.2.deps = [])).map Prod.fst }

/-- Push loop of `_check_dependencies` (lines 226-241): each dependent
that is still Pending and whose dependencies are all Completed is
pushed onto the heap. -/
def pushReady (st : QState) : List String → QState
  | [] => st
  | tid :: rest =>
    match alookup st.tasks tid with
    | some t =>
      if t.status = .pending ∧ depsSatisfied st.tasks t.deps = true then
        pushReady { st with heap := st.heap ++ [tid] } rest
      else
        pushReady st rest
    | none => pushReady st rest

/-- Translation of `ExecutionQueue._check_dependencies`. -/
def checkDeps (st : QState) (cid : String) : QState :=
  pushReady st ((alookup st.depGraph cid).getD [])

/-- Worker steps of `ExecutionQueue.worker` / `execute_task`
(lines 151-224): pop a heap member; a non-Pending task is dropped,
a Pending one transitions to Running; a Running task's executor either
completes it (then `_check_dependencies` runs on it) or fails it. -/
inductive QStep : QState → QState → Prop
  | popStale (st : QState) (tid : String) (hmem : tid ∈ st.heap)
      (hstat : ∀ t, alookup st.tasks tid = some t → t.status ≠ .pending) :
      QStep st { st with heap := st.heap.erase tid }
  | startRun (st : QState) (tid : String) (t : QTask) (hmem : tid ∈ st.heap)
      (ht : alookup st.tasks tid = some t) (hstat : t.status = .pending) :
      QStep st { st with
        heap := st.heap.erase tid,
        tasks := ainsert st.tasks tid { t with status := .running } }
  | complete (st : QState) (tid : String) (t : QTask)
      (ht : alookup st.tasks tid = some t) (hstat : t.status = .running) :
      QStep st (checkDeps
        { st with tasks := ainsert st.tasks tid { t with status := .completed } }
        tid)
  | fail (st : QState) (tid : String) (t : QTask)
      (ht : alookup st.tasks tid = some t) (hstat : t.status = .running) :
      QStep st { st with tasks := ainsert st.tasks tid { t with status := .failed } }

def initialQState : QState := { tasks := [], heap := [], depGraph := [] }

/-- States reachable in one graph execution: all tasks are added, the
queue is started, then workers interleave. -/
inductive QReach (spec : List (String × List String)) : QState → Prop
  | start : QReach spec (startPush (addTasks initialQState spec))
  | step (st st2 : QState) : QReach spec st → QStep st st2 → QReach spec st2

/-- The scheduler's ordering invariant: every task sitting in the ready
heap has all of its dependencies Completed. -/
def HeapReady (st : QState) : Prop :=
  ∀ tid ∈ st.heap, ∀ t, alookup st.tasks tid = some t →
    ∀ d ∈ t.deps, ∃ dt, alookup st.tasks d = some dt ∧ dt.status = .completed

/-! ### Invariant proof for the queue -/

theorem depsSatisfied_spec (tasks : List (String × QTask)) (deps : List String)
    (h : depsSatisfied tasks deps = true) :
    ∀ d ∈ deps, ∃ dt, alookup tasks d = some dt ∧ dt.status = .completed := by
  intro d hd
  have hall := List.all_eq_true.mp h d hd
  revert hall
  cases hl : alookup tasks d with
  | none => intro hall; cases hall
  | some dt =>
    intro hall
    exact ⟨dt, rfl, by simpa using hall⟩

/-- Before the queue starts, every registered task is Pending. -/
def AllPending (st : QState) : Prop :=
  ∀ k t, alookup st.tasks k = some t → t.status = .pending

/-- Before the queue starts, only dependency-free tasks can be in the
heap. -/
def HeapNoDeps (st : QState) : Prop :=
  ∀ tid ∈ st.heap, ∀ t, alookup st.tasks tid = some t → t.deps = []

/-- Every heap member is a registered task. -/
def HeapKeys (st : QState) : Prop :=
  ∀ tid ∈ st.heap, (alookup st.tasks tid).isSome = true

theorem depsSatisfied_allPending (tasks : List (String × QTask))
    (hap : ∀ k t, alookup tasks k = some t → t.status = .pending)
    (deps : List String) (h : depsSatisfied tasks deps = true) : deps = [] := by
  cases deps with
  | nil => rfl
  | cons d rest =>
    obtain ⟨dt, hdt, hcomp⟩ :=
      depsSatisfied_spec tasks (d :: rest) h d (List.mem_cons_self d rest)
    rw [hap d dt hdt] at hcomp
    cases hcomp

theorem akeys_ainsert_fresh {α : Type} (l : List (String × α)) (k : String)
    (v : α) (h : alookup l k = none) :
    akeys (ainsert l k v) = akeys l ++ [k] := by
  induction l with
  | nil => rfl
  | cons hd t ih =>
    obtain ⟨k0, v0⟩ := hd
    by_cases hk : k0 = k
    · subst hk
      simp [alookup] at h
    · simp only [alookup, if_neg hk] at h
      simp [ainsert, if_neg hk, akeys] at ih ⊢
      exact ih h

theorem alookup_eq_of_mem_nodup {α : Type} (l : List (String × α))
    (hnd : (akeys l).Nodup) (kv : String × α) (hm : kv ∈ l) :
    alookup l kv.1 = some kv.2 := by
  induction l with
  | nil => cases hm
  | cons hd t ih =>
    obtain ⟨k0, v0⟩ := hd
    rcases List.mem_cons.mp hm with rfl | hm2
    · simp [alookup]
    · have hk : k0 ≠ kv.1 := by
        intro hEq
        have : kv.1 ∈ akeys t := by
          subst hEq
          exact List.mem_map.mpr ⟨kv, hm2, rfl⟩
        rw [← hEq] at this
        exact (List.nodup_cons.mp (by simpa [akeys] using hnd)).1 this
      simp only [alookup, if_neg hk]
      exact ih (List.nodup_cons.mp (by simpa [akeys] using hnd)).2 hm2

theorem not_mem_akeys_of_alookup_none {α : Type} (l : List (String × α))
    (k : String) (h : alookup l k = none) : k ∉ akeys l := by
  intro hmem
  have := alookup_isSome_of_mem_keys l k hmem
  rw [h] at this
  cases this

theorem alookup_addTask_ne (st : QState) (tid : String) (deps : List String)
    (k : String) (h : tid ≠ k) :
    alookup (addTask st tid deps).tasks k = alookup st.tasks k := by
  unfold addTask
  by_cases hc : deps = [] ∨ depsSatisfied (ainsert st.tasks tid
      ⟨tid, deps, TStatus.pending⟩) deps = true
  · rw [if_pos hc]
    exact alookup_ainsert_ne st.tasks tid k _ h
  · rw [if_neg hc]
    exact alookup_ainsert_ne st.tasks tid k _ h

theorem addTask_inv (st : QState) (tid : String) (deps : List String)
    (hfresh : alookup st.tasks tid = none)
    (hap : AllPending st) (hhnd : HeapNoDeps st) (hhk : HeapKeys st)
    (hknd : (akeys st.tasks).Nodup) :
    AllPending (addTask st tid deps) ∧ HeapNoDeps (addTask st tid deps) ∧
    HeapKeys (addTask st tid deps) ∧
    (akeys (addTask st tid deps).tasks).Nodup := by
  have htidheap : tid ∉ st.heap := by
    intro hmem
    have := hhk tid hmem
    rw [hfresh] at this
    cases this
  have hap1 : ∀ k t, alookup (ainsert st.tasks tid
      ⟨tid, deps, TStatus.pending⟩) k = some t → t.status = .pending := by
    intro k t hk
    by_cases hkt : tid = k
    · subst hkt
      rw [alookup_eq_some_of_mem_ainsert st.tasks tid _] at hk
      cases hk
      rfl
    · rw [alookup_ainsert_ne st.tasks tid k _ hkt] at hk
      exact hap k t hk
  have hknd1 : (akeys (ainsert st.tasks tid
      ⟨tid, deps, TStatus.pending⟩)).Nodup := by
    rw [akeys_ainsert_fresh st.tasks tid _ hfresh]
    refine List.Nodup.append hknd (by simp) ?_
    intro x hx hy
    rcases List.mem_singleton.mp hy with rfl
    exact not_mem_akeys_of_alookup_none st.tasks x hfresh hx
  unfold addTask
  by_cases hc : deps = [] ∨ depsSatisfied (ainsert st.tasks tid
      ⟨tid, deps, TStatus.pending⟩) deps = true
  · rw [if_pos hc]
    have hdeps : deps = [] := by
      rcases hc with h | h
      · exact h
      · exact depsSatisfied_allPending _ (fun k t hk => hap1 k t hk) deps h
    refine ⟨hap1, ?_, ?_, hknd1⟩
    · intro m hmem t hlook
      rcases List.mem_append.mp hmem with hmem | hmem
      · by_cases hmt : tid = m
        · subst hmt; exact absurd hmem htidheap
        · rw [alookup_ainsert_ne st.tasks tid m _ hmt] at hlook
          exact hhnd m hmem t hlook
      · rcases List.mem_singleton.mp hmem with rfl
        rw [alookup_eq_some_of_mem_ainsert st.tasks m _] at hlook
        cases hlook
        exact hdeps
    · intro m hmem
      rcases List.mem_append.mp hmem with hmem | hmem
      · by_cases hmt : tid = m
        · subst hmt
          rw [alookup_eq_some_of_mem_ainsert st.tasks tid _]; rfl
        · rw [alookup_ainsert_ne st.tasks tid m _ hmt]
          exact hhk m hmem
      · rcases List.mem_singleton.mp hmem with rfl
        rw [alookup_eq_some_of_mem_ainsert st.tasks m _]; rfl
  · rw [if_neg hc]
    refine ⟨hap1, ?_, ?_, hknd1⟩
    · intro m hmem t hlook
      by_cases hmt : tid = m
      · subst hmt; exact absurd hmem htidheap
      · rw [alookup_ainsert_ne st.tasks tid m _ hmt] at hlook
        exact hhnd m hmem t hlook
    · intro m hmem
      by_cases hmt : tid = m
      · subst hmt
        rw [alookup_eq_some_of_mem_ainsert st.tasks tid _]; rfl
      · rw [alookup_ainsert_ne st.tasks tid m _ hmt]
        exact hhk m hmem

theorem addTasks_inv :
    ∀ (spec : List (String × List String)) (st : QState),
      (spec.map Prod.fst).Nodup →
      (∀ p ∈ spec, alookup st.tasks p.1 = none) →
      AllPending st → HeapNoDeps st → HeapKeys st →
      (akeys st.tasks).Nodup →
      AllPending (addTasks st spec) ∧ HeapNoDeps (addTasks st spec) ∧
      HeapKeys (addTasks st spec) ∧ (akeys (addTasks st spec).tasks).Nodup := by
  intro spec
  induction spec with
  | nil => intro st _ _ hap hhnd hhk hknd; exact ⟨hap, hhnd, hhk, hknd⟩
  | cons p rest ih =>
    intro st hnd hfresh hap hhnd hhk hknd
    obtain ⟨tid, deps⟩ := p
    have hfr : alookup st.tasks tid = none := hfresh (tid, deps) (by simp)
    obtain ⟨hap1, hhnd1, hhk1, hknd1⟩ :=
      addTask_inv st tid deps hfr hap hhnd hhk hknd
    refine ih (addTask st tid deps) ?_ ?_ hap1 hhnd1 hhk1 hknd1
    · exact (List.nodup_cons.mp (by simpa using hnd)).2
    · intro q hq
      have hqt : tid ≠ q.1 := by
        intro hEq
        have : q.1 ∈ rest.map Prod.fst := List.mem_map.mpr ⟨q, hq, rfl⟩
        rw [← hEq] at this
        exact (List.nodup_cons.mp (by simpa using hnd)).1 this
      rw [alookup_addTask_ne st tid deps q.1 hqt]
      exact hfresh q (List.mem_cons_of_mem _ hq)

theorem alookup_map_resetPending (l : List (String × QTask)) (k : String) :
    alookup (l.map (fun kv =>
      if kv.2.deps = [] then (kv.1, { kv.2 with status := TStatus.pending })
      else kv)) k =
    (alookup l k).map (fun t =>
      if t.deps = [] then { t with status := TStatus.pending } else t) := by
  induction l with
  | nil => rfl
  | cons hd tl ih =>
    obtain ⟨k0, v0⟩ := hd
    simp only [List.map_cons]
    by_cases hd0 : v0.deps = []
    · rw [show (if (k0, v0).2.deps = [] then
          ((k0, v0).1, { (k0, v0).2 with status := TStatus.pending })
          else (k0, v0)) = (k0, { v0 with status := TStatus.pending })
        from by rw [if_pos hd0]]
      by_cases hk : k0 = k
      · subst hk
        simp [alookup, hd0]
      · simp [alookup, hk, ih]
    · rw [show (if (k0, v0).2.deps = [] then
          ((k0, v0).1, { (k0, v0).2 with status := TStatus.pending })
          else (k0, v0)) = (k0, v0)
        from by rw [if_neg hd0]]
      by_cases hk : k0 = k
      · subst hk
        simp [alookup, hd0]
      · simp [alookup, hk, ih]

theorem startPush_heapReady (st : QState)
    (hhnd : HeapNoDeps st) (hknd : (akeys st.tasks).Nodup) :
    HeapReady (startPush st) := by
  intro m hmem t hlook d hd
  exfalso
  have hmap := alookup_map_resetPending st.tasks m
  rw [show (startPush st).tasks = st.tasks.map (fun kv =>
      if kv.2.deps = [] then (kv.1, { kv.2 with status := TStatus.pending })
      else kv) from rfl, hmap] at hlook
  revert hlook
  cases hl : alookup st.tasks m with
  | none => intro hlook; cases hlook
  | some t0 =>
    intro hlook
    have hdeps0 : t0.deps = [] := by
      rcases List.mem_append.mp (show m ∈ st.heap ++
          (st.tasks.filter (fun kv => kv.2.deps = [])).map Prod.fst
          from hmem) with hm | hm
      · exact hhnd m hm t0 hl
      · obtain ⟨kv, hkv, hkveq⟩ := List.mem_map.mp hm
        have hkvmem := (List.mem_filter.mp hkv).1
        have hkvd := (List.mem_filter.mp hkv).2
        have hkvl : alookup st.tasks kv.1 = some kv.2 :=
          alookup_eq_of_mem_nodup st.tasks hknd kv hkvmem
        rw [hkveq, hl] at hkvl
        cases hkvl
        simpa using hkvd
    rw [Option.map_some'] at hlook
    rw [if_pos hdeps0] at hlook
    cases hlook
    rw [show ({ t0 with status := TStatus.pending } : QTask).deps = t0.deps
      from rfl, hdeps0] at hd
    cases hd

theorem pushReady_preserves (lst : List String) :
    ∀ st : QState, HeapReady st → HeapReady (pushReady st lst) := by
  induction lst with
  | nil => intro st hr; exact hr
  | cons tid rest ih =>
    intro st hr
    show HeapReady (pushReady st (tid :: rest))
    rw [show pushReady st (tid :: rest) =
      (match alookup st.tasks tid with
       | some t =>
         if t.status = .pending ∧ depsSatisfied st.tasks t.deps = true then
           pushReady { st with heap := st.heap ++ [tid] } rest
         else
           pushReady st rest
       | none => pushReady st rest) from rfl]
    cases hl : alookup st.tasks tid with
    | none => exact ih st hr
    | some t =>
      dsimp only
      by_cases hc : t.status = .pending ∧ depsSatisfied st.tasks t.deps = true
      · rw [if_pos hc]
        refine ih _ ?_
        intro m hm tm hlook d hd
        rcases List.mem_append.mp hm with hm2 | hm2
        · exact hr m hm2 tm hlook d hd
        · rcases List.mem_singleton.mp hm2 with rfl
          rw [hl] at hlook
          cases hlook
          exact depsSatisfied_spec st.tasks t.deps hc.2 d hd
      · rw [if_neg hc]
        exact ih st hr

theorem qstep_preserves (st st2 : QState) (hr : HeapReady st)
    (hs : QStep st st2) : HeapReady st2 := by
  cases hs with
  | popStale tid hmem hstat =>
    intro m hm t hlook d hd
    exact hr m (List.mem_of_mem_erase hm) t hlook d hd
  | startRun tid t hmem ht hstat =>
    intro m hm tm hlook d hd
    have hm0 : m ∈ st.heap := List.mem_of_mem_erase hm
    by_cases hmt : tid = m
    · subst hmt
      rw [alookup_eq_some_of_mem_ainsert st.tasks tid _] at hlook
      cases hlook
      obtain ⟨dt, hdt, hdts⟩ := hr tid hm0 t ht d (by simpa using hd)
      by_cases hdtid : tid = d
      · subst hdtid
        rw [ht] at hdt
        cases hdt
        rw [hstat] at hdts
        cases hdts
      · refine ⟨dt, ?_, hdts⟩
        rw [alookup_ainsert_ne st.tasks tid d _ hdtid]
        exact hdt
    · rw [alookup_ainsert_ne st.tasks tid m _ hmt] at hlook
      obtain ⟨dt, hdt, hdts⟩ := hr m hm0 tm hlook d hd
      by_cases hdtid : tid = d
      · subst hdtid
        rw [ht] at hdt
        cases hdt
        rw [hstat] at hdts
        cases hdts
      · refine ⟨dt, ?_, hdts⟩
        rw [alookup_ainsert_ne st.tasks tid d _ hdtid]
        exact hdt
  | complete tid t ht hstat =>
    apply pushReady_preserves
    intro m hm tm hlook d hd
    by_cases hmt : tid = m
    · subst hmt
      rw [alookup_eq_some_of_mem_ainsert st.tasks tid _] at hlook
      cases hlook
      obtain ⟨dt, hdt, hdts⟩ := hr tid hm t ht d (by simpa using hd)
      by_cases hdtid : tid = d
      · subst hdtid
        rw [ht] at hdt
        cases hdt
        rw [hstat] at hdts
        cases hdts
      · refine ⟨dt, ?_, hdts⟩
        rw [alookup_ainsert_ne st.tasks tid d _ hdtid]
        exact hdt
    · rw [alookup_ainsert_ne st.tasks tid m _ hmt] at hlook
      obtain ⟨dt, hdt, hdts⟩ := hr m hm tm hlook d hd
      by_cases hdtid : tid = d
      · subst hdtid
        refine ⟨{ t with status := .completed },
          alookup_eq_some_of_mem_ainsert st.tasks tid _, rfl⟩
      · refine ⟨dt, ?_, hdts⟩
        rw [alookup_ainsert_ne st.tasks tid d _ hdtid]
        exact hdt
  | fail tid t ht hstat =>
    intro m hm tm hlook d hd
    by_cases hmt : tid = m
    · subst hmt
      rw [alookup_eq_some_of_mem_ainsert st.tasks tid _] at hlook
      cases hlook
      obtain ⟨dt, hdt, hdts⟩ := hr tid hm t ht d (by simpa using hd)
      by_cases hdtid : tid = d
      · subst hdtid
        rw [ht] at hdt
        cases hdt
        rw [hstat] at hdts
        cases hdts
      · refine ⟨dt, ?_, hdts⟩
        rw [alookup_ainsert_ne st.tasks tid d _ hdtid]
        exact hdt
    · rw [alookup_ainsert_ne st.tasks tid m _ hmt] at hlook
      obtain ⟨dt, hdt, hdts⟩ := hr m hm tm hlook d hd
      by_cases hdtid : tid = d
      · subst hdtid
        rw [ht] at hdt
        cases hdt
        rw [hstat] at hdts
        cases hdts
      · refine ⟨dt, ?_, hdts⟩
        rw [alookup_ainsert_ne st.tasks tid d _ hdtid]
        exact hdt

/-- C1: in every execution of a graph (distinct task ids, all tasks
added, queue started, workers interleaving), every task in the ready
heap has all of its dependencies Completed; consequently a task
transitions to Running (a Pending heap member picked by a worker) only
when none of its dependencies is Pending or Running — for any edge
u→v, u completes before v starts. -/
theorem C1_heap_ready (spec : List (String × List String))
    (hnd : (spec.map Prod.fst).Nodup) (st : QState) (hr : QReach spec st) :
    HeapReady st ∧
    (∀ tid t, tid ∈ st.heap → alookup st.tasks tid = some t →
      t.status = .pending →
      ∀ d ∈ t.deps, ∃ dt, alookup st.tasks d = some dt ∧
        dt.status = .completed ∧ dt.status ≠ .pending ∧
        dt.status ≠ .running) := by
  have hmain : HeapReady st := by
    induction hr with
    | start =>
      obtain ⟨hap, hhnd, hhk, hknd⟩ := addTasks_inv spec initialQState hnd
        (fun p _ => rfl) (fun k t h => by cases h) (fun tid hm => by cases hm)
        (fun tid hm => by cases hm) List.nodup_nil
      exact startPush_heapReady _ hhnd hknd
    | step st1 st2 hr1 hstep ih => exact qstep_preserves st1 st2 ih hstep
  refine ⟨hmain, ?_⟩
  intro tid t hmem hlook _ d hd
  obtain ⟨dt, hdt, hdts⟩ := hmain tid hmem t hlook d hd
  refine ⟨dt, hdt, hdts, ?_, ?_⟩
  · rw [hdts]; intro hc; cases hc
  · rw [hdts]; intro hc; cases hc

/-- Witness for C1 at a two-task chain (task_b depends on task_a). -/
theorem C1_witness :
    HeapReady (startPush (addTasks initialQState
      [("task_a", []), ("task_b", ["task_a"])])) ∧
    (∀ tid t, tid ∈ (startPush (addTasks initialQState
        [("task_a", []), ("task_b", ["task_a"])])).heap →
      alookup (startPush (addTasks initialQState
        [("task_a", []), ("task_b", ["task_a"])])).tasks tid = some t →
      t.status = .pending →
      ∀ d ∈ t.deps, ∃ dt, alookup (startPush (addTasks initialQState
        [("task_a", []), ("task_b", ["task_a"])])).tasks d = some dt ∧
        dt.status = .completed ∧ dt.status ≠ .pending ∧
        dt.status ≠ .running) :=
  C1_heap_ready [("task_a", []), ("task_b", ["task_a"])] (by decide) _
    QReach.start

/-! ## Topological sorting (`src/core/graph_executor.py` lines 15-93)

`TopologicalSorter.kahn_sort` builds an in-degree dict over the node
ids, bumps it once per edge (a `KeyError` if an edge targets an unknown
id), seeds a FIFO deque with the zero-degree ids in insertion order,
then repeatedly pops a node, emits it, and decrements its out-targets,
enqueuing those that reach zero.  A final length check raises
`ValueError` on cycles.  The while-loop is modelled with explicit fuel;
running out of fuel is mapped to a distinct `RuntimeError`, so an `.ok`
result always corresponds to a genuinely terminated Python loop. -/

def kahnInit (g : Graph) : List (String × Int) :=
  g.nodes.map (fun kv => (kv.1, (0 : Int)))

/-- The `for edge in graph.edges.values(): in_degree[edge.target] += 1`
pass (lines 20-21). -/
def bumpTargets : List (String × Int) → List Edge →
    Except PyErr (List (String × Int))
  | deg, [] => .ok deg
  | deg, e :: es =>
    match alookup deg e.target with
    | none => .error (.keyError e.target)
    | some v => bumpTargets (ainsert deg e.target (v + 1)) es

/-- The inner `for edge in outgoing_edges` body (lines 34-37):
decrement each target, enqueue it when its degree reaches zero. -/
def relaxTargets : List (String × Int) → List String → List Edge →
    Except PyErr (List (String × Int) × List String)
  | deg, q, [] => .ok (deg, q)
  | deg, q, e :: es =>
    match alookup deg e.target with
    | none => .error (.keyError e.target)
    | some v =>
      relaxTargets (ainsert deg e.target (v - 1))
        (if v - 1 = 0 then q ++ [e.target] else q) es

/-- The `while queue` loop (lines 28-37). -/
def kahnLoop : Nat → Graph → List (String × Int) → List String →
    List String → Except PyErr (List String)
  | 0, _, _, _, _ => .error (.runtimeError "loop fuel exhausted")
  | _ + 1, _, _, [], order => .ok order
  | fuel + 1, g, deg, nid :: q, order =>
    match relaxTargets deg q (g.edgesFromNode nid) with
    | .error err => .error err
    | .ok (deg2, q2) => kahnLoop fuel g deg2 q2 (order ++ [nid])

/-- Translation of `TopologicalSorter.kahn_sort` (lines 15-43). -/
def kahn_sort (g : Graph) : Except PyErr (List String) :=
  match bumpTargets (kahnInit g) g.edgeList with
  | .error err => .error err
  | .ok deg =>
    match kahnLoop (g.nodes.length + 1) g deg
        ((deg.filter (fun kv => kv.2 = 0)).map Prod.fst) [] with
    | .error err => .error err
    | .ok order =>
      if order.length = g.nodes.length then .ok order
      else .error (.valueError
        "Graph contains a cycle, topological sort is not possible")

/-! `TopologicalSorter.dfs_sort` (lines 45-93) marks nodes 0 (white),
1 (on the recursion stack) or 2 (done); hitting a 1-mark sets a cycle
flag, and each frame appends its node to the post-order after its
children return (it does so even when the cycle flag is already set,
exactly as the Python code).  The recursion is modelled as an explicit
work list: visiting a white node pushes one visit item per outgoing
edge followed by a finish item for the node itself. -/

inductive DfsItem where
  | visit : String → DfsItem
  | finish : String → DfsItem
deriving DecidableEq, Repr

structure DfsSt where
  visited : List (String × Nat)
  postorder : List String
  cycle : Bool
deriving DecidableEq, Repr

/-- One step of the `dfs` closure (lines 56-80) driven by the work
list.  A finish item runs the frame epilogue (`visited[node_id] = 2;
topological_order.append(node_id)`); a visit item runs the entry checks
and, for a white node, marks it 1 and schedules its children and its
own epilogue. -/
def dfsRun : Nat → Graph → DfsSt → List DfsItem → Except PyErr DfsSt
  | _, _, s, [] => .ok s
  | 0, _, _, _ :: _ => .error (.runtimeError "recursion fuel exhausted")
  | fuel + 1, g, s, .finish nid :: rest =>
    dfsRun fuel g { s with
      visited := ainsert s.visited nid 2,
      postorder := s.postorder ++ [nid] } rest
  | fuel + 1, g, s, .visit nid :: rest =>
    if s.cycle then dfsRun fuel g s rest
    else
      match alookup s.visited nid with
      | none => .error (.keyError nid)
      | some m =>
        if m = 1 then dfsRun fuel g { s with cycle := true } rest
        else if m = 2 then dfsRun fuel g s rest
        else
          dfsRun fuel g { s with visited := ainsert s.visited nid 1 }
            ((g.edgesFromNode nid).map (fun e => .visit e.target) ++
              .finish nid :: rest)

def DfsSt.init (g : Graph) : DfsSt :=
  { visited := g.nodes.map (fun kv => (kv.1, 0)),
    postorder := [],
    cycle := false }

/-- The top-level `for node_id in graph.nodes: if visited[node_id] == 0:
dfs(node_id)` loop (lines 83-85). -/
def dfsTop : Graph → DfsSt → List String → Except PyErr DfsSt
  | _, s, [] => .ok s
  | g, s, nid :: rest =>
    match alookup s.visited nid with
    | none => .error (.keyError nid)
    | some m =>
      if m = 0 then
        match dfsRun (g.nodes.length + g.edges.length + 2) g s
            [.visit nid] with
        | .error err => .error err
        | .ok s2 => dfsTop g s2 rest
      else dfsTop g s rest

/-- Translation of `TopologicalSorter.dfs_sort` (lines 45-93). -/
def dfs_sort (g : Graph) : Except PyErr (List String) :=
  match dfsTop g (DfsSt.init g) (akeys g.nodes) with
  | .error err => .error err
  | .ok s =>
    if s.cycle then
      .error (.valueError
        "Graph contains a cycle, topological sort is not possible")
    else .ok s.postorder.reverse

/-- `a` occurs strictly before `b` in `l`. -/
def listBefore (l : List String) (a b : String) : Prop :=
  List.Sublist [a, b] l

/-- In-degree still owed to `v`: edges into `v` whose source has not
been emitted yet. -/
def kahnRem (g : Graph) (order : List String) (v : String) : Nat :=
  (g.edgeList.filter (fun e => decide (e.target = v ∧ e.source ∉ order))).length

/-- Edges into `v` among a pending edge list. -/
def pendCount (es : List Edge) (v : String) : Nat :=
  (es.filter (fun e => decide (e.target = v))).length

theorem alookup_map_pair {α β : Type} (l : List (String × α)) (f : α → β)
    (k : String) :
    alookup (l.map (fun kv => (kv.1, f kv.2))) k = (alookup l k).map f := by
  induction l with
  | nil => rfl
  | cons hd tl ih =>
    obtain ⟨k0, v0⟩ := hd
    by_cases hk : k0 = k
    · subst hk
      simp [alookup]
    · simp [alookup, hk, ih]

theorem akeys_map_pair {α β : Type} (l : List (String × α)) (f : α → β) :
    akeys (l.map (fun kv => (kv.1, f kv.2))) = akeys l := by
  induction l with
  | nil => rfl
  | cons hd tl ih => simp [akeys] at ih ⊢

theorem akeys_ainsert_mem {α : Type} (l : List (String × α)) (k : String)
    (v : α) (h : k ∈ akeys l) : akeys (ainsert l k v) = akeys l := by
  induction l with
  | nil => simp [akeys] at h
  | cons hd tl ih =>
    obtain ⟨k0, v0⟩ := hd
    by_cases hk : k0 = k
    · subst hk
      simp [ainsert, akeys]
    · have h2 : k ∈ akeys tl := by
        simp [akeys] at h
        rcases h with h | h
        · exact absurd h.symm hk
        · simpa [akeys] using h
      rw [show ainsert ((k0, v0) :: tl) k v = (k0, v0) :: ainsert tl k v from by
        simp [ainsert, hk]]
      show k0 :: akeys (ainsert tl k v) = k0 :: akeys tl
      rw [ih h2]

theorem length_filter_and_split {α : Type} (l : List α) (p q : α → Bool) :
    (l.filter p).length =
    (l.filter (fun a => p a && q a)).length +
    (l.filter (fun a => p a && !q a)).length := by
  induction l with
  | nil => rfl
  | cons a t ih =>
    by_cases hp : p a = true
    · by_cases hq : q a = true
      · simp [List.filter_cons, hp, hq, ih]
        omega
      · simp [List.filter_cons, hp, hq, ih]
        omega
    · simp [List.filter_cons, hp, ih]

theorem filter_length_congr {α : Type} (l : List α) (p q : α → Bool)
    (h : ∀ a ∈ l, p a = q a) :
    (l.filter p).length = (l.filter q).length := by
  rw [List.filter_congr h]

theorem listBefore_append (l l2 : List String) (a b : String)
    (h : listBefore l a b) : listBefore (l ++ l2) a b :=
  h.trans (List.sublist_append_left l l2)

theorem listBefore_mem_append (l : List String) (a b : String) (h : a ∈ l) :
    listBefore (l ++ [b]) a b := by
  obtain ⟨l1, l2, rfl⟩ := List.append_of_mem h
  have h1 : List.Sublist [a, b] (a :: (l2 ++ [b])) :=
    List.Sublist.cons₂ a (List.sublist_append_right l2 [b])
  have h2 : List.Sublist ([] ++ [a, b]) (l1 ++ (a :: (l2 ++ [b]))) :=
    List.Sublist.append (List.nil_sublist l1) h1
  have h3 : List.Sublist [a, b] (l1 ++ (a :: (l2 ++ [b]))) := h2
  show List.Sublist [a, b] ((l1 ++ a :: l2) ++ [b])
  rw [List.append_assoc]
  exact h3

theorem listBefore_reverse (l : List String) (a b : String)
    (h : listBefore l a b) : listBefore l.reverse b a := by
  have h2 := List.Sublist.reverse h
  simpa [listBefore] using h2

theorem listBefore_mem_left (l : List String) (a b : String)
    (h : listBefore l a b) : a ∈ l :=
  h.subset (by simp)

/-- Decompositions of `A ++ x :: C` around a distinguished element. -/
theorem split_middle {α : Type} :
    ∀ (A : List α) {C l1 l2 : List α} {x y : α},
    A ++ x :: C = l1 ++ y :: l2 →
    y ∈ A ∨ (l1 = A ∧ y = x ∧ l2 = C) ∨
    (∃ l1t, l1 = A ++ x :: l1t ∧ C = l1t ++ y :: l2)
  | [], C, l1, l2, x, y, h => by
    cases l1 with
    | nil =>
      simp at h
      exact Or.inr (Or.inl ⟨rfl, h.1.symm, h.2.symm⟩)
    | cons c l1t =>
      simp at h
      exact Or.inr (Or.inr ⟨l1t, by simp [h.1], h.2⟩)
  | a :: A, C, l1, l2, x, y, h => by
    cases l1 with
    | nil =>
      simp at h
      exact Or.inl (by simp [h.1])
    | cons c l1t =>
      simp at h
      rcases split_middle A h.2 with h2 | h2 | h2
      · exact Or.inl (by simp [h2])
      · exact Or.inr (Or.inl ⟨by simp [h.1, h2.1], h2.2.1, h2.2.2⟩)
      · obtain ⟨l1s, hs1, hs2⟩ := h2
        exact Or.inr (Or.inr ⟨l1s, by simp [h.1, hs1], hs2⟩)

theorem kahnRem_nil (g : Graph) (v : String) :
    kahnRem g [] v = pendCount g.edgeList v := by
  simp [kahnRem, pendCount]

theorem kahnRem_zero_sources (g : Graph) (order : List String) (v : String)
    (h : kahnRem g order v = 0) :
    ∀ e ∈ g.edgeList, e.target = v → e.source ∈ order := by
  intro e he ht
  by_contra hs
  have hmem : e ∈ g.edgeList.filter
      (fun e => decide (e.target = v ∧ e.source ∉ order)) :=
    List.mem_filter.mpr ⟨he, by simp [ht, hs]⟩
  have hlen := List.length_pos.mpr (List.ne_nil_of_mem hmem)
  rw [show (g.edgeList.filter
    (fun e => decide (e.target = v ∧ e.source ∉ order))).length =
    kahnRem g order v from rfl, h] at hlen
  exact Nat.lt_irrefl 0 hlen

theorem kahnRem_pos_of_mem (g : Graph) (order : List String) (v : String)
    (e : Edge) (he : e ∈ g.edgeList) (ht : e.target = v)
    (hs : e.source ∉ order) : 0 < kahnRem g order v := by
  have hmem : e ∈ g.edgeList.filter
      (fun e => decide (e.target = v ∧ e.source ∉ order)) :=
    List.mem_filter.mpr ⟨he, by simp [ht, hs]⟩
  exact List.length_pos.mpr (List.ne_nil_of_mem hmem)

theorem kahnRem_split (g : Graph) (order : List String) (nid : String)
    (hnid : nid ∉ order) (v : String) :
    kahnRem g order v =
    kahnRem g (order ++ [nid]) v + pendCount (g.edgesFromNode nid) v := by
  have hsplit := length_filter_and_split g.edgeList
    (fun e => decide (e.target = v ∧ e.source ∉ order))
    (fun e => decide (e.source = nid))
  have hleft : (g.edgeList.filter (fun e =>
      decide (e.target = v ∧ e.source ∉ order) &&
      !decide (e.source = nid))).length = kahnRem g (order ++ [nid]) v := by
    apply filter_length_congr
    intro e _
    by_cases h1 : e.target = v <;> by_cases h2 : e.source ∈ order <;>
      by_cases h3 : e.source = nid <;>
      simp [h1, h2, h3, List.mem_append]
  have hright : (g.edgeList.filter (fun e =>
      decide (e.target = v ∧ e.source ∉ order) &&
      decide (e.source = nid))).length =
      pendCount (g.edgesFromNode nid) v := by
    rw [show pendCount (g.edgesFromNode nid) v =
      ((g.edgeList.filter (fun e => decide (e.source = nid))).filter
        (fun e => decide (e.target = v))).length from rfl]
    rw [List.filter_filter]
    apply filter_length_congr
    intro e _
    by_cases h1 : e.target = v <;> by_cases h3 : e.source = nid
    · simp [h1, h3, hnid]
    · simp [h1, h3]
    · simp [h1, h3, hnid]
    · simp [h1, h3]
  rw [hleft, hright] at hsplit
  rw [show kahnRem g order v = (g.edgeList.filter (fun e =>
    decide (e.target = v ∧ e.source ∉ order))).length from rfl, hsplit]
  omega

theorem bumpTargets_ok (es : List Edge) :
    ∀ deg deg2, bumpTargets deg es = .ok deg2 →
    (∀ v, alookup deg2 v =
      (alookup deg v).map (fun k => k + (pendCount es v : Int))) ∧
    akeys deg2 = akeys deg ∧
    (∀ e ∈ es, e.target ∈ akeys deg) := by
  induction es with
  | nil =>
    intro deg deg2 h
    cases h
    refine ⟨?_, rfl, by simp⟩
    intro v
    cases alookup deg v <;> simp [pendCount]
  | cons e es ih =>
    intro deg deg2 h
    revert h
    cases hx : alookup deg e.target with
    | none => intro h; simp [bumpTargets, hx] at h
    | some v0 =>
      intro h
      simp only [bumpTargets, hx] at h
      obtain ⟨hlook, hkeys, htgt⟩ := ih (ainsert deg e.target (v0 + 1)) deg2 h
      have hmemt : e.target ∈ akeys deg :=
        mem_keys_of_alookup_eq_some deg e.target v0 hx
      have hkeys1 : akeys (ainsert deg e.target (v0 + 1)) = akeys deg :=
        akeys_ainsert_mem deg e.target _ hmemt
      refine ⟨?_, by rw [hkeys, hkeys1], ?_⟩
      · intro v
        by_cases hv : e.target = v
        · subst hv
          rw [hlook e.target,
            alookup_eq_some_of_mem_ainsert deg e.target (v0 + 1), hx]
          have hpc : pendCount (e :: es) e.target = pendCount es e.target + 1 := by
            simp [pendCount]
          rw [hpc]
          simp only [Option.map_some']
          congr 1
          push_cast
          ring
        · rw [hlook v, alookup_ainsert_ne deg e.target v _ hv]
          have hpc : pendCount (e :: es) v = pendCount es v := by
            simp [pendCount, hv]
          rw [hpc]
      · intro e2 he2
        rcases List.mem_cons.mp he2 with rfl | he2
        · exact hmemt
        · rw [← hkeys1]
          exact htgt e2 he2

theorem relaxTargets_ok (g : Graph) (nid : String) (order : List String)
    (hnid : nid ∉ order) :
    ∀ (es : List Edge) (deg : List (String × Int)) (q : List String)
      (deg2 : List (String × Int)) (q2 : List String),
    relaxTargets deg q es = .ok (deg2, q2) →
    (∀ e ∈ es, e ∈ g.edgeList ∧ e.source = nid ∧ e.target ≠ nid) →
    (∀ v k, alookup deg v = some k →
      k = ((kahnRem g (order ++ [nid]) v + pendCount es v : Nat) : Int)) →
    (∀ v ∈ q, alookup deg v = some 0) →
    ((order ++ [nid]) ++ q).Nodup →
    (∀ v ∈ q, v ∈ akeys deg) →
    (∀ e ∈ g.edgeList, e.target ∈ order → listBefore order e.source e.target) →
    (∀ v k, alookup deg2 v = some k →
      k = ((kahnRem g (order ++ [nid]) v : Nat) : Int)) ∧
    (∀ v ∈ q2, alookup deg2 v = some 0) ∧
    ((order ++ [nid]) ++ q2).Nodup ∧
    (∀ v ∈ q2, v ∈ akeys deg2) ∧
    akeys deg2 = akeys deg := by
  intro es
  induction es with
  | nil =>
    intro deg q deg2 q2 h hes hE hQ hN hM hOrd
    simp only [relaxTargets] at h
    injection h with h1
    rw [Prod.mk.injEq] at h1
    obtain ⟨rfl, rfl⟩ := h1
    refine ⟨?_, hQ, hN, hM, rfl⟩
    intro v k hk
    simpa [pendCount] using hE v k hk
  | cons e es ih =>
    intro deg q deg2 q2 h hes hE hQ hN hM hOrd
    obtain ⟨heg, hesrc, hent⟩ := hes e (List.mem_cons_self e es)
    revert h
    cases hx : alookup deg e.target with
    | none => intro h; simp [relaxTargets, hx] at h
    | some v0 =>
      intro h
      simp only [relaxTargets, hx] at h
      have hv0 := hE e.target v0 hx
      have hpc : pendCount (e :: es) e.target = pendCount es e.target + 1 := by
        simp [pendCount]
      have htmem : e.target ∈ akeys deg :=
        mem_keys_of_alookup_eq_some deg e.target v0 hx
      have hkeys1 : akeys (ainsert deg e.target (v0 - 1)) = akeys deg :=
        akeys_ainsert_mem deg e.target _ htmem
      have hE1 : ∀ v k, alookup (ainsert deg e.target (v0 - 1)) v = some k →
          k = ((kahnRem g (order ++ [nid]) v + pendCount es v : Nat) : Int) := by
        intro v k hk
        by_cases hv : e.target = v
        · subst hv
          rw [alookup_eq_some_of_mem_ainsert] at hk
          injection hk with hk
          rw [← hk, hv0, hpc]
          push_cast
          ring
        · rw [alookup_ainsert_ne deg e.target v _ hv] at hk
          simpa [show pendCount (e :: es) v = pendCount es v from by
            simp [pendCount, hv]] using hE v k hk
      have hes1 : ∀ e2 ∈ es, e2 ∈ g.edgeList ∧ e2.source = nid ∧
          e2.target ≠ nid := fun e2 he2 => hes e2 (List.mem_cons_of_mem e he2)
      by_cases hzero : v0 - 1 = 0
      · rw [if_pos hzero] at h
        have hv01 : v0 = 1 := by omega
        have hcnt : kahnRem g (order ++ [nid]) e.target = 0 ∧
            pendCount es e.target = 0 := by
          rw [hpc] at hv0
          rw [hv01] at hv0
          constructor <;> omega
        have htq : e.target ∉ q := by
          intro hq
          have := hQ e.target hq
          rw [hx] at this
          injection this with this
          omega
        have htord : e.target ∉ order := by
          intro ho
          have hb := hOrd e heg ho
          have := listBefore_mem_left order e.source e.target hb
          rw [hesrc] at this
          exact hnid this
        have htA : e.target ∉ (order ++ [nid]) ++ q := by
          intro hmem
          rcases List.mem_append.mp hmem with hmem | hmem
          · rcases List.mem_append.mp hmem with hmem | hmem
            · exact htord hmem
            · exact hent (List.mem_singleton.mp hmem)
          · exact htq hmem
        have hN1 : ((order ++ [nid]) ++ (q ++ [e.target])).Nodup := by
          rw [← List.append_assoc]
          refine List.Nodup.append hN (List.nodup_singleton _) ?_
          intro a ha hb
          rw [List.mem_singleton] at hb
          subst hb
          exact htA ha
        have hQ1 : ∀ v ∈ q ++ [e.target],
            alookup (ainsert deg e.target (v0 - 1)) v = some 0 := by
          intro v hv
          rcases List.mem_append.mp hv with hv | hv
          · have hvne : e.target ≠ v := fun hcc => htq (hcc ▸ hv)
            rw [alookup_ainsert_ne deg e.target v _ hvne]
            exact hQ v hv
          · rw [List.mem_singleton.mp hv]
            rw [alookup_eq_some_of_mem_ainsert, hzero]
        have hM1 : ∀ v ∈ q ++ [e.target],
            v ∈ akeys (ainsert deg e.target (v0 - 1)) := by
          intro v hv
          rw [hkeys1]
          rcases List.mem_append.mp hv with hv | hv
          · exact hM v hv
          · rw [List.mem_singleton.mp hv]
            exact htmem
        obtain ⟨c1, c2, c3, c4, c5⟩ := ih _ _ _ _ h hes1 hE1 hQ1 hN1 hM1 hOrd
        exact ⟨c1, c2, c3, c4, by rw [c5, hkeys1]⟩
      · rw [if_neg hzero] at h
        have hQ1 : ∀ v ∈ q,
            alookup (ainsert deg e.target (v0 - 1)) v = some 0 := by
          intro v hv
          have hvne : e.target ≠ v := by
            intro hcc
            have := hQ v hv
            rw [← hcc, hx] at this
            injection this with this
            omega
          rw [alookup_ainsert_ne deg e.target v _ hvne]
          exact hQ v hv
        have hM1 : ∀ v ∈ q, v ∈ akeys (ainsert deg e.target (v0 - 1)) := by
          intro v hv
          rw [hkeys1]
          exact hM v hv
        obtain ⟨c1, c2, c3, c4, c5⟩ := ih _ _ _ _ h hes1 hE1 hQ1 hN hM1 hOrd
        exact ⟨c1, c2, c3, c4, by rw [c5, hkeys1]⟩

theorem kahnLoop_ok (g : Graph) :
    ∀ (fuel : Nat) (queue : List String) (deg : List (String × Int))
      (order ord : List String),
    kahnLoop fuel g deg queue order = .ok ord →
    (∀ v k, alookup deg v = some k → k = ((kahnRem g order v : Nat) : Int)) →
    (∀ v ∈ queue, alookup deg v = some 0) →
    (order ++ queue).Nodup →
    (∀ v ∈ order ++ queue, v ∈ akeys deg) →
    (∀ e ∈ g.edgeList, e.target ∈ order → listBefore order e.source e.target) →
    akeys deg = akeys g.nodes →
    ord.Nodup ∧ (∀ v ∈ ord, v ∈ akeys g.nodes) ∧
    (∀ e ∈ g.edgeList, e.target ∈ ord → listBefore ord e.source e.target) := by
  intro fuel
  induction fuel with
  | zero =>
    intro queue deg order ord h
    simp [kahnLoop] at h
  | succ fuel ih =>
    intro queue deg order ord h hE hQ hN hM hOrd hK
    cases queue with
    | nil =>
      simp only [kahnLoop] at h
      injection h with h
      subst h
      refine ⟨by simpa using hN, fun v hv => ?_, hOrd⟩
      rw [← hK]
      exact hM v (by simpa using hv)
    | cons nid q =>
      simp only [kahnLoop] at h
      revert h
      cases hr : relaxTargets deg q (g.edgesFromNode nid) with
      | error err => intro h; cases h
      | ok pair =>
        intro h
        obtain ⟨deg2, q2⟩ := pair
        have hN0 := hN
        rw [List.nodup_append] at hN0
        obtain ⟨hNo, hNq, hDis⟩ := hN0
        have hnid : nid ∉ order := fun hc =>
          hDis hc (List.mem_cons_self nid q)
        have hq0nid : alookup deg nid = some 0 :=
          hQ nid (List.mem_cons_self nid q)
        have hrem0 : kahnRem g order nid = 0 := by
          have := hE nid 0 hq0nid
          omega
        have hes : ∀ e ∈ g.edgesFromNode nid,
            e ∈ g.edgeList ∧ e.source = nid ∧ e.target ≠ nid := by
          intro e he
          obtain ⟨heg, hsrc⟩ := List.mem_filter.mp he
          have hsrc2 : e.source = nid := by simpa using hsrc
          refine ⟨heg, hsrc2, ?_⟩
          intro hc
          have hpos := kahnRem_pos_of_mem g order nid e heg hc
            (by rw [hsrc2]; exact hnid)
          omega
        have hE1 : ∀ v k, alookup deg v = some k →
            k = ((kahnRem g (order ++ [nid]) v +
              pendCount (g.edgesFromNode nid) v : Nat) : Int) := by
          intro v k hk
          rw [hE v k hk, kahnRem_split g order nid hnid v]
        have hQ1 : ∀ v ∈ q, alookup deg v = some 0 :=
          fun v hv => hQ v (List.mem_cons_of_mem nid hv)
        have hN1 : ((order ++ [nid]) ++ q).Nodup := by
          rw [List.append_assoc]
          exact hN
        have hM1 : ∀ v ∈ q, v ∈ akeys deg :=
          fun v hv => hM v (List.mem_append.mpr
            (Or.inr (List.mem_cons_of_mem nid hv)))
        obtain ⟨c1, c2, c3, c4, c5⟩ := relaxTargets_ok g nid order hnid
          (g.edgesFromNode nid) deg q deg2 q2 hr hes hE1 hQ1 hN1 hM1 hOrd
        have hM2 : ∀ v ∈ (order ++ [nid]) ++ q2, v ∈ akeys deg2 := by
          intro v hv
          rcases List.mem_append.mp hv with hv | hv
          · rw [c5]
            rcases List.mem_append.mp hv with hv | hv
            · exact hM v (List.mem_append.mpr (Or.inl hv))
            · rw [List.mem_singleton.mp hv]
              exact hM nid (List.mem_append.mpr
                (Or.inr (List.mem_cons_self nid q)))
          · exact c4 v hv
        have hOrd2 : ∀ e ∈ g.edgeList, e.target ∈ order ++ [nid] →
            listBefore (order ++ [nid]) e.source e.target := by
          intro e he ht
          rcases List.mem_append.mp ht with ht | ht
          · exact listBefore_append order [nid] e.source e.target
              (hOrd e he ht)
          · have hteq := List.mem_singleton.mp ht
            have hsrc := kahnRem_zero_sources g order nid hrem0 e he hteq
            rw [hteq]
            exact listBefore_mem_append order e.source nid hsrc
        exact ih q2 deg2 (order ++ [nid]) ord h c1 c2 c3 hM2 hOrd2
          (c5.trans hK)

theorem kahn_sort_topological (g : Graph)
    (hnd : (g.nodes.map Prod.fst).Nodup) (ord : List String)
    (h : kahn_sort g = .ok ord) :
    ord.Perm (akeys g.nodes) ∧
    ∀ e ∈ g.edgeList, listBefore ord e.source e.target := by
  rw [kahn_sort] at h
  revert h
  cases hB : bumpTargets (kahnInit g) g.edgeList with
  | error err => intro h; cases h
  | ok deg =>
    intro h
    dsimp only at h
    revert h
    cases hL : kahnLoop (g.nodes.length + 1) g deg
        ((deg.filter (fun kv => kv.2 = 0)).map Prod.fst) [] with
    | error err => intro h; cases h
    | ok order0 =>
      intro h
      dsimp only at h
      by_cases hlen : order0.length = g.nodes.length
      · rw [if_pos hlen] at h
        injection h with h
        subst h
        obtain ⟨blook, bkeys, btgt⟩ :=
          bumpTargets_ok g.edgeList (kahnInit g) deg hB
        have hkinit : akeys (kahnInit g) = akeys g.nodes :=
          akeys_map_pair g.nodes (fun _ => (0 : Int))
        have hkdeg : akeys deg = akeys g.nodes := bkeys.trans hkinit
        have hnddeg : (akeys deg).Nodup := by
          rw [hkdeg]
          exact hnd
        have hE0 : ∀ v k, alookup deg v = some k →
            k = ((kahnRem g [] v : Nat) : Int) := by
          intro v k hk
          rw [blook v, show alookup (kahnInit g) v =
            (alookup g.nodes v).map (fun _ => (0 : Int)) from
            alookup_map_pair g.nodes (fun _ => (0 : Int)) v] at hk
          cases hx : alookup g.nodes v with
          | none => rw [hx] at hk; cases hk
          | some n =>
            rw [hx] at hk
            simp only [Option.map_some'] at hk
            injection hk with hk
            rw [← hk, kahnRem_nil]
            omega
        have hseed : List.Sublist
            ((deg.filter (fun kv => kv.2 = 0)).map Prod.fst) (akeys deg) :=
          List.Sublist.map Prod.fst (List.filter_sublist deg)
        have hQ0 : ∀ v ∈ (deg.filter (fun kv => kv.2 = 0)).map Prod.fst,
            alookup deg v = some 0 := by
          intro v hv
          obtain ⟨kv, hkv, hkveq⟩ := List.mem_map.mp hv
          obtain ⟨hkvd, hkvz⟩ := List.mem_filter.mp hkv
          have := alookup_eq_of_mem_nodup deg hnddeg kv hkvd
          rw [hkveq] at this
          rw [this]
          have hz : kv.2 = 0 := by simpa using hkvz
          rw [hz]
        have hN0 : (([] : List String) ++
            (deg.filter (fun kv => kv.2 = 0)).map Prod.fst).Nodup := by
          simpa using List.Nodup.sublist hseed hnddeg
        have hM0 : ∀ v ∈ ([] : List String) ++
            (deg.filter (fun kv => kv.2 = 0)).map Prod.fst,
            v ∈ akeys deg := by
          intro v hv
          exact hseed.subset (by simpa using hv)
        have hOrd0 : ∀ e ∈ g.edgeList, e.target ∈ ([] : List String) →
            listBefore [] e.source e.target := by
          intro e _ ht
          cases ht
        obtain ⟨ondp, osub, oord⟩ := kahnLoop_ok g (g.nodes.length + 1)
          ((deg.filter (fun kv => kv.2 = 0)).map Prod.fst) deg [] order0
          hL hE0 hQ0 hN0 hM0 hOrd0 hkdeg
        have hsp : order0.Subperm (akeys g.nodes) :=
          List.Nodup.subperm ondp (fun v hv => osub v hv)
        have hperm : order0.Perm (akeys g.nodes) := by
          refine hsp.perm_of_length_le ?_
          rw [show (akeys g.nodes).length = g.nodes.length from
            List.length_map g.nodes Prod.fst, hlen]
        refine ⟨hperm, ?_⟩
        intro e he
        have htk : e.target ∈ akeys g.nodes := by
          rw [← hkinit]
          exact btgt e he
        have hto : e.target ∈ order0 := hperm.mem_iff.mpr htk
        exact oord e he hto
      · rw [if_neg hlen] at h
        cases h

/-- Keys of the `visited` dict never change: every node id, nothing
else. -/
def VisitedKeys (g : Graph) (s : DfsSt) : Prop :=
  akeys s.visited = akeys g.nodes

/-- Mark 2 (done) is synonymous with membership in the post-order. -/
def MarkOrder (s : DfsSt) : Prop :=
  (∀ v, alookup s.visited v = some 2 ↔ v ∈ s.postorder) ∧ s.postorder.Nodup

/-- Marks only ever hold 0, 1 or 2. -/
def MarksBound (s : DfsSt) : Prop :=
  ∀ v k, alookup s.visited v = some k → k = 0 ∨ k = 1 ∨ k = 2

/-- Mark 1 (on the stack) is synonymous with a pending finish item, and
finish items are pending at most once. -/
def PendingFin (s : DfsSt) (items : List DfsItem) : Prop :=
  (∀ v, DfsItem.finish v ∈ items → alookup s.visited v = some 1) ∧
  (∀ v, alookup s.visited v = some 1 → DfsItem.finish v ∈ items) ∧
  (∀ v, items.count (DfsItem.finish v) ≤ 1)

/-- By the time a finish item surfaces, every outgoing edge target of
its node is done: each target is handled by an earlier work item or
already carries mark 2. -/
def FinReady (g : Graph) (s : DfsSt) (items : List DfsItem) : Prop :=
  ∀ l1 v l2, items = l1 ++ DfsItem.finish v :: l2 →
    ∀ e ∈ g.edgesFromNode v,
      DfsItem.visit e.target ∈ l1 ∨ DfsItem.finish e.target ∈ l1 ∨
      alookup s.visited e.target = some 2

/-- In the post-order (before reversal) every edge target precedes its
source. -/
def EdgeOrder (g : Graph) (s : DfsSt) : Prop :=
  ∀ e ∈ g.edgeList, e.source ∈ s.postorder →
    listBefore s.postorder e.target e.source

theorem dfsRun_cycle (g : Graph) :
    ∀ (fuel : Nat) (items : List DfsItem) (s s2 : DfsSt),
    dfsRun fuel g s items = .ok s2 → s.cycle = true → s2.cycle = true := by
  intro fuel
  induction fuel with
  | zero =>
    intro items s s2 h hc
    cases items with
    | nil =>
      injection h with h
      subst h
      exact hc
    | cons i rest => simp [dfsRun] at h
  | succ fuel ih =>
    intro items s s2 h hc
    cases items with
    | nil =>
      injection h with h
      subst h
      exact hc
    | cons i rest =>
      cases i with
      | finish nid =>
        simp only [dfsRun] at h
        exact ih rest _ s2 h hc
      | visit nid =>
        simp only [dfsRun] at h
        rw [if_pos hc] at h
        exact ih rest s s2 h hc

theorem dfsTop_cycle (g : Graph) :
    ∀ (lst : List String) (s s2 : DfsSt),
    dfsTop g s lst = .ok s2 → s.cycle = true → s2.cycle = true := by
  intro lst
  induction lst with
  | nil =>
    intro s s2 h hc
    injection h with h
    subst h
    exact hc
  | cons nid rest ih =>
    intro s s2 h hc
    revert h
    simp only [dfsTop]
    cases hx : alookup s.visited nid with
    | none => intro h; cases h
    | some m =>
      dsimp only
      by_cases hm : m = 0
      · rw [if_pos hm]
        cases hr : dfsRun (g.nodes.length + g.edges.length + 2) g s
            [.visit nid] with
        | error err => intro h; cases h
        | ok s1 =>
          intro h
          exact ih s1 s2 h (dfsRun_cycle g _ _ s s1 hr hc)
      · rw [if_neg hm]
        intro h
        exact ih s s2 h hc

theorem dfsRun_inv (g : Graph) :
    ∀ (fuel : Nat) (items : List DfsItem) (s s2 : DfsSt),
    dfsRun fuel g s items = .ok s2 → s2.cycle = false →
    VisitedKeys g s → MarkOrder s → MarksBound s → PendingFin s items →
    FinReady g s items → EdgeOrder g s →
    VisitedKeys g s2 ∧ MarkOrder s2 ∧ MarksBound s2 ∧ PendingFin s2 [] ∧
    EdgeOrder g s2 ∧
    (∀ v, alookup s.visited v = some 2 → alookup s2.visited v = some 2) ∧
    (∀ v, DfsItem.visit v ∈ items ∨ DfsItem.finish v ∈ items →
      alookup s2.visited v = some 2) := by
  intro fuel
  induction fuel with
  | zero =>
    intro items s s2 h hfalse hVK hMO hMB hPF hFR hEO
    cases items with
    | nil =>
      injection h with h
      subst h
      exact ⟨hVK, hMO, hMB, hPF, hEO, fun v hv => hv,
        fun v hv => by rcases hv with hv | hv <;> cases hv⟩
    | cons i rest => simp [dfsRun] at h
  | succ fuel ih =>
    intro items s s2 h hfalse hVK hMO hMB hPF hFR hEO
    cases items with
    | nil =>
      injection h with h
      subst h
      exact ⟨hVK, hMO, hMB, hPF, hEO, fun v hv => hv,
        fun v hv => by rcases hv with hv | hv <;> cases hv⟩
    | cons i rest =>
      obtain ⟨pf1, pf2, pf3⟩ := hPF
      obtain ⟨mo1, mo2⟩ := hMO
      cases i with
      | finish nid =>
        simp only [dfsRun] at h
        have hm1 : alookup s.visited nid = some 1 :=
          pf1 nid (List.mem_cons_self _ _)
        have hnidpo : nid ∉ s.postorder := by
          intro hc
          have h12 := (mo1 nid).mpr hc
          rw [hm1] at h12
          injection h12 with h12
          omega
        have hmemk : nid ∈ akeys s.visited :=
          mem_keys_of_alookup_eq_some s.visited nid 1 hm1
        have hfinrest : DfsItem.finish nid ∉ rest := by
          have := pf3 nid
          rw [List.count_cons] at this
          simp only [beq_self_eq_true, if_true] at this
          exact List.count_eq_zero.mp (by omega)
        have hVK1 : VisitedKeys g { s with
            visited := ainsert s.visited nid 2,
            postorder := s.postorder ++ [nid] } := by
          show akeys (ainsert s.visited nid 2) = akeys g.nodes
          rw [akeys_ainsert_mem s.visited nid 2 hmemk]
          exact hVK
        have hMO1 : MarkOrder { s with
            visited := ainsert s.visited nid 2,
            postorder := s.postorder ++ [nid] } := by
          constructor
          · intro v
            show alookup (ainsert s.visited nid 2) v = some 2 ↔
              v ∈ s.postorder ++ [nid]
            by_cases hv : nid = v
            · subst hv
              rw [alookup_eq_some_of_mem_ainsert]
              simp
            · rw [alookup_ainsert_ne s.visited nid v 2 hv]
              rw [List.mem_append, List.mem_singleton]
              constructor
              · intro hk
                exact Or.inl ((mo1 v).mp hk)
              · intro hk
                rcases hk with hk | hk
                · exact (mo1 v).mpr hk
                · exact absurd hk.symm hv
          · show (s.postorder ++ [nid]).Nodup
            rw [List.nodup_append]
            exact ⟨mo2, List.nodup_singleton _, fun a ha hb =>
              hnidpo ((List.mem_singleton.mp hb) ▸ ha)⟩
        have hMB1 : MarksBound { s with
            visited := ainsert s.visited nid 2,
            postorder := s.postorder ++ [nid] } := by
          intro v k hk
          by_cases hv : nid = v
          · subst hv
            rw [alookup_eq_some_of_mem_ainsert] at hk
            injection hk with hk
            omega
          · rw [alookup_ainsert_ne s.visited nid v 2 hv] at hk
            exact hMB v k hk
        have hPF1 : PendingFin { s with
            visited := ainsert s.visited nid 2,
            postorder := s.postorder ++ [nid] } rest := by
          refine ⟨?_, ?_, ?_⟩
          · intro v hv
            have hvne : nid ≠ v := by
              intro hc
              exact hfinrest (hc ▸ hv)
            show alookup (ainsert s.visited nid 2) v = some 1
            rw [alookup_ainsert_ne s.visited nid v 2 hvne]
            exact pf1 v (List.mem_cons_of_mem _ hv)
          · intro v hv
            by_cases hvne : nid = v
            · subst hvne
              rw [show alookup (ainsert s.visited nid 2) nid = some 2 from
                alookup_eq_some_of_mem_ainsert s.visited nid 2] at hv
              injection hv with hv
              omega
            · rw [show alookup (ainsert s.visited nid 2) v =
                alookup s.visited v from
                alookup_ainsert_ne s.visited nid v 2 hvne] at hv
              rcases List.mem_cons.mp (pf2 v hv) with hc | hc
              · injection hc with hc
                exact absurd hc.symm hvne
              · exact hc
          · intro v
            have := pf3 v
            rw [List.count_cons] at this
            split at this <;> omega
        have hFR1 : FinReady g { s with
            visited := ainsert s.visited nid 2,
            postorder := s.postorder ++ [nid] } rest := by
          intro l1 v l2 hdec e he
          have hdec2 : DfsItem.finish nid :: rest =
              (DfsItem.finish nid :: l1) ++ DfsItem.finish v :: l2 := by
            rw [hdec]
            rfl
          rcases hFR (DfsItem.finish nid :: l1) v l2 hdec2 e he with
            hc | hc | hc
          · rcases List.mem_cons.mp hc with hc | hc
            · exact absurd hc (by intro hcc; exact DfsItem.noConfusion hcc)
            · exact Or.inl hc
          · rcases List.mem_cons.mp hc with hc | hc
            · injection hc with hc
              subst hc
              refine Or.inr (Or.inr ?_)
              show alookup (ainsert s.visited e.target 2) e.target = some 2
              rw [alookup_eq_some_of_mem_ainsert]
            · exact Or.inr (Or.inl hc)
          · have hvne : nid ≠ e.target := by
              intro hcc
              rw [← hcc, hm1] at hc
              injection hc with hc
              omega
            refine Or.inr (Or.inr ?_)
            show alookup (ainsert s.visited nid 2) e.target = some 2
            rw [alookup_ainsert_ne s.visited nid e.target 2 hvne]
            exact hc
        have hEO1 : EdgeOrder g { s with
            visited := ainsert s.visited nid 2,
            postorder := s.postorder ++ [nid] } := by
          intro e he hsrc
          show listBefore (s.postorder ++ [nid]) e.target e.source
          rcases List.mem_append.mp hsrc with hsrc | hsrc
          · exact listBefore_append _ _ _ _ (hEO e he hsrc)
          · have hsrceq := List.mem_singleton.mp hsrc
            have hef : e ∈ g.edgesFromNode nid :=
              List.mem_filter.mpr ⟨he, by simp [hsrceq]⟩
            rcases hFR [] nid rest rfl e hef with hc | hc | hc
            · cases hc
            · cases hc
            · have htpo : e.target ∈ s.postorder := (mo1 e.target).mp hc
              rw [hsrceq]
              exact listBefore_mem_append s.postorder e.target nid htpo
        obtain ⟨C1, C2, C3, C4, C5, C6, C7⟩ := ih rest _ s2 h hfalse
          hVK1 hMO1 hMB1 hPF1 hFR1 hEO1
        refine ⟨C1, C2, C3, C4, C5, ?_, ?_⟩
        · intro v hv
          have hvne : nid ≠ v := by
            intro hc
            rw [← hc, hm1] at hv
            injection hv with hv
            omega
          refine C6 v ?_
          show alookup (ainsert s.visited nid 2) v = some 2
          rw [alookup_ainsert_ne s.visited nid v 2 hvne]
          exact hv
        · intro v hv
          rcases hv with hv | hv
          · rcases List.mem_cons.mp hv with hc | hc
            · exact absurd hc (by intro hcc; exact DfsItem.noConfusion hcc)
            · exact C7 v (Or.inl hc)
          · rcases List.mem_cons.mp hv with hc | hc
            · injection hc with hc
              subst hc
              refine C6 v ?_
              show alookup (ainsert s.visited v 2) v = some 2
              rw [alookup_eq_some_of_mem_ainsert]
            · exact C7 v (Or.inr hc)
      | visit nid =>
        simp only [dfsRun] at h
        by_cases hcy : s.cycle = true
        · rw [if_pos hcy] at h
          have := dfsRun_cycle g fuel rest s s2 h hcy
          rw [hfalse] at this
          cases this
        · rw [if_neg hcy] at h
          revert h
          cases hx : alookup s.visited nid with
          | none => intro h; cases h
          | some m =>
            intro h
            dsimp only at h
            by_cases hm1 : m = 1
            · rw [if_pos hm1] at h
              have := dfsRun_cycle g fuel rest _ s2 h rfl
              rw [hfalse] at this
              cases this
            · rw [if_neg hm1] at h
              by_cases hm2 : m = 2
              · rw [if_pos hm2] at h
                have hPF1 : PendingFin s rest := by
                  refine ⟨fun v hv => pf1 v (List.mem_cons_of_mem _ hv),
                    ?_, ?_⟩
                  · intro v hv
                    rcases List.mem_cons.mp (pf2 v hv) with hc | hc
                    · exact absurd hc (by
                        intro hcc
                        exact DfsItem.noConfusion hcc)
                    · exact hc
                  · intro v
                    have := pf3 v
                    rw [List.count_cons] at this
                    split at this <;> omega
                have hFR1 : FinReady g s rest := by
                  intro l1 v l2 hdec e he
                  have hdec2 : DfsItem.visit nid :: rest =
                      (DfsItem.visit nid :: l1) ++ DfsItem.finish v :: l2 := by
                    rw [hdec]
                    rfl
                  rcases hFR (DfsItem.visit nid :: l1) v l2 hdec2 e he with
                    hc | hc | hc
                  · rcases List.mem_cons.mp hc with hc | hc
                    · injection hc with hc
                      subst hc
                      refine Or.inr (Or.inr ?_)
                      rw [hx, hm2]
                    · exact Or.inl hc
                  · rcases List.mem_cons.mp hc with hc | hc
                    · exact absurd hc (by
                        intro hcc
                        exact DfsItem.noConfusion hcc)
                    · exact Or.inr (Or.inl hc)
                  · exact Or.inr (Or.inr hc)
                obtain ⟨C1, C2, C3, C4, C5, C6, C7⟩ := ih rest s s2 h hfalse
                  hVK ⟨mo1, mo2⟩ hMB hPF1 hFR1 hEO
                refine ⟨C1, C2, C3, C4, C5, C6, ?_⟩
                intro v hv
                rcases hv with hv | hv
                · rcases List.mem_cons.mp hv with hc | hc
                  · injection hc with hc
                    subst hc
                    refine C6 v ?_
                    rw [hx, hm2]
                  · exact C7 v (Or.inl hc)
                · rcases List.mem_cons.mp hv with hc | hc
                  · exact absurd hc (by
                      intro hcc
                      exact DfsItem.noConfusion hcc)
                  · exact C7 v (Or.inr hc)
              · rw [if_neg hm2] at h
                have hmemk : nid ∈ akeys s.visited :=
                  mem_keys_of_alookup_eq_some s.visited nid m hx
                have hfinnid : DfsItem.finish nid ∉
                    DfsItem.visit nid :: rest := by
                  intro hc
                  have := pf1 nid hc
                  rw [hx] at this
                  injection this with this
                  exact hm1 this
                have hfinnidrest : DfsItem.finish nid ∉ rest :=
                  fun hc => hfinnid (List.mem_cons_of_mem _ hc)
                have hnidpo : nid ∉ s.postorder := by
                  intro hc
                  have := (mo1 nid).mpr hc
                  rw [hx] at this
                  injection this with this
                  exact hm2 this
                have hVK1 : VisitedKeys g { s with
                    visited := ainsert s.visited nid 1 } := by
                  show akeys (ainsert s.visited nid 1) = akeys g.nodes
                  rw [akeys_ainsert_mem s.visited nid 1 hmemk]
                  exact hVK
                have hMO1 : MarkOrder { s with
                    visited := ainsert s.visited nid 1 } := by
                  refine ⟨?_, mo2⟩
                  intro v
                  show alookup (ainsert s.visited nid 1) v = some 2 ↔
                    v ∈ s.postorder
                  by_cases hv : nid = v
                  · subst hv
                    rw [alookup_eq_some_of_mem_ainsert]
                    constructor
                    · intro hk
                      injection hk with hk
                      omega
                    · intro hk
                      exact absurd hk hnidpo
                  · rw [alookup_ainsert_ne s.visited nid v 1 hv]
                    exact mo1 v
                have hMB1 : MarksBound { s with
                    visited := ainsert s.visited nid 1 } := by
                  intro v k hk
                  by_cases hv : nid = v
                  · subst hv
                    rw [alookup_eq_some_of_mem_ainsert] at hk
                    injection hk with hk
                    omega
                  · rw [alookup_ainsert_ne s.visited nid v 1 hv] at hk
                    exact hMB v k hk
                have hPF1 : PendingFin { s with
                    visited := ainsert s.visited nid 1 }
                    ((g.edgesFromNode nid).map
                      (fun e => DfsItem.visit e.target) ++
                      DfsItem.finish nid :: rest) := by
                  refine ⟨?_, ?_, ?_⟩
                  · intro v hv
                    show alookup (ainsert s.visited nid 1) v = some 1
                    rcases List.mem_append.mp hv with hv | hv
                    · obtain ⟨e, _, heq⟩ := List.mem_map.mp hv
                      exact absurd heq (by
                        intro hcc
                        exact DfsItem.noConfusion hcc)
                    · rcases List.mem_cons.mp hv with hc | hc
                      · injection hc with hc
                        subst hc
                        rw [alookup_eq_some_of_mem_ainsert]
                      · have hvne : nid ≠ v := by
                          intro hcc
                          exact hfinnidrest (hcc ▸ hc)
                        rw [alookup_ainsert_ne s.visited nid v 1 hvne]
                        exact pf1 v (List.mem_cons_of_mem _ hc)
                  · intro v hv
                    by_cases hvne : nid = v
                    · subst hvne
                      exact List.mem_append.mpr
                        (Or.inr (List.mem_cons_self _ _))
                    · rw [show alookup (ainsert s.visited nid 1) v =
                        alookup s.visited v from
                        alookup_ainsert_ne s.visited nid v 1 hvne] at hv
                      rcases List.mem_cons.mp (pf2 v hv) with hc | hc
                      · exact absurd hc (by
                          intro hcc
                          exact DfsItem.noConfusion hcc)
                      · exact List.mem_append.mpr
                          (Or.inr (List.mem_cons_of_mem _ hc))
                  · intro v
                    have hnotcv : DfsItem.finish v ∉
                        (g.edgesFromNode nid).map
                          (fun e => DfsItem.visit e.target) := by
                      intro hc
                      obtain ⟨e, _, heq⟩ := List.mem_map.mp hc
                      exact DfsItem.noConfusion heq
                    rw [List.count_append, List.count_eq_zero.mpr hnotcv,
                      List.count_cons]
                    have hold := pf3 v
                    rw [List.count_cons] at hold
                    by_cases hv : v = nid
                    · subst hv
                      rw [List.count_eq_zero.mpr hfinnidrest]
                      simp
                    · have hb1 : (DfsItem.finish nid ==
                          DfsItem.finish v) = false := by
                        simp
                        intro hc
                        exact hv hc.symm
                      rw [hb1]
                      simp only [Bool.false_eq_true, if_false]
                      split at hold <;> omega
                have hFR1 : FinReady g { s with
                    visited := ainsert s.visited nid 1 }
                    ((g.edgesFromNode nid).map
                      (fun e => DfsItem.visit e.target) ++
                      DfsItem.finish nid :: rest) := by
                  intro l1 v l2 hdec e he
                  rcases split_middle ((g.edgesFromNode nid).map
                      (fun e => DfsItem.visit e.target)) hdec with
                    hc | hc | hc
                  · obtain ⟨e2, _, heq⟩ := List.mem_map.mp hc
                    exact absurd heq (by
                      intro hcc
                      exact DfsItem.noConfusion hcc)
                  · obtain ⟨hl1, hyx, _⟩ := hc
                    injection hyx with hyx
                    subst hyx
                    subst hl1
                    exact Or.inl (List.mem_map.mpr ⟨e, he, rfl⟩)
                  · obtain ⟨l1t, hl1, hC⟩ := hc
                    have hdec2 : DfsItem.visit nid :: rest =
                        (DfsItem.visit nid :: l1t) ++
                          DfsItem.finish v :: l2 := by
                      rw [hC]
                      rfl
                    rcases hFR (DfsItem.visit nid :: l1t) v l2 hdec2 e he
                      with hc | hc | hc
                    · rcases List.mem_cons.mp hc with hc | hc
                      · injection hc with hc
                        subst hc
                        refine Or.inr (Or.inl ?_)
                        rw [hl1]
                        exact List.mem_append.mpr
                          (Or.inr (List.mem_cons_self _ _))
                      · refine Or.inl ?_
                        rw [hl1]
                        exact List.mem_append.mpr
                          (Or.inr (List.mem_cons_of_mem _ hc))
                    · rcases List.mem_cons.mp hc with hc | hc
                      · exact absurd hc (by
                          intro hcc
                          exact DfsItem.noConfusion hcc)
                      · refine Or.inr (Or.inl ?_)
                        rw [hl1]
                        exact List.mem_append.mpr
                          (Or.inr (List.mem_cons_of_mem _ hc))
                    · have hvne : nid ≠ e.target := by
                        intro hcc
                        rw [← hcc, hx] at hc
                        injection hc with hc
                        exact hm2 hc
                      refine Or.inr (Or.inr ?_)
                      show alookup (ainsert s.visited nid 1) e.target =
                        some 2
                      rw [alookup_ainsert_ne s.visited nid e.target 1 hvne]
                      exact hc
                have hEO1 : EdgeOrder g { s with
                    visited := ainsert s.visited nid 1 } := by
                  intro e he hsrc
                  exact hEO e he hsrc
                obtain ⟨C1, C2, C3, C4, C5, C6, C7⟩ := ih _ _ s2 h hfalse
                  hVK1 hMO1 hMB1 hPF1 hFR1 hEO1
                refine ⟨C1, C2, C3, C4, C5, ?_, ?_⟩
                · intro v hv
                  have hvne : nid ≠ v := by
                    intro hc
                    rw [← hc, hx] at hv
                    injection hv with hv
                    exact hm2 hv
                  refine C6 v ?_
                  show alookup (ainsert s.visited nid 1) v = some 2
                  rw [alookup_ainsert_ne s.visited nid v 1 hvne]
                  exact hv
                · intro v hv
                  rcases hv with hv | hv
                  · rcases List.mem_cons.mp hv with hc | hc
                    · injection hc with hc
                      subst hc
                      exact C7 v (Or.inr (List.mem_append.mpr
                        (Or.inr (List.mem_cons_self _ _))))
                    · exact C7 v (Or.inl (List.mem_append.mpr
                        (Or.inr (List.mem_cons_of_mem _ hc))))
                  · rcases List.mem_cons.mp hv with hc | hc
                    · exact absurd hc (by
                        intro hcc
                        exact DfsItem.noConfusion hcc)
                    · exact C7 v (Or.inr (List.mem_append.mpr
                        (Or.inr (List.mem_cons_of_mem _ hc))))

theorem dfsTop_inv (g : Graph) :
    ∀ (lst : List String) (s s2 : DfsSt),
    dfsTop g s lst = .ok s2 → s2.cycle = false →
    VisitedKeys g s → MarkOrder s → MarksBound s →
    (∀ v, alookup s.visited v ≠ some 1) → EdgeOrder g s →
    VisitedKeys g s2 ∧ MarkOrder s2 ∧ MarksBound s2 ∧
    (∀ v, alookup s2.visited v ≠ some 1) ∧ EdgeOrder g s2 ∧
    (∀ v, alookup s.visited v = some 2 → alookup s2.visited v = some 2) ∧
    (∀ v ∈ lst, alookup s2.visited v = some 2) := by
  intro lst
  induction lst with
  | nil =>
    intro s s2 h hfalse hVK hMO hMB hN1 hEO
    injection h with h
    subst h
    exact ⟨hVK, hMO, hMB, hN1, hEO, fun v hv => hv,
      fun v hv => absurd hv (List.not_mem_nil v)⟩
  | cons nid rest ih =>
    intro s s2 h hfalse hVK hMO hMB hN1 hEO
    revert h
    simp only [dfsTop]
    cases hx : alookup s.visited nid with
    | none => intro h; cases h
    | some m =>
      dsimp only
      by_cases hm : m = 0
      · rw [if_pos hm]
        cases hr : dfsRun (g.nodes.length + g.edges.length + 2) g s
            [.visit nid] with
        | error err => intro h; cases h
        | ok s1 =>
          intro h
          have hc1 : s1.cycle = false := by
            cases hc : s1.cycle
            · rfl
            · have := dfsTop_cycle g rest s1 s2 h hc
              rw [hfalse] at this
              cases this
          have hPF : PendingFin s [DfsItem.visit nid] := by
            refine ⟨?_, ?_, ?_⟩
            · intro v hv
              have := List.mem_singleton.mp hv
              exact absurd this (by
                intro hcc
                exact DfsItem.noConfusion hcc)
            · intro v hv
              exact absurd hv (hN1 v)
            · intro v
              simp [List.count_cons]
          have hFR : FinReady g s [DfsItem.visit nid] := by
            intro l1 v l2 hdec e _
            cases l1 with
            | nil =>
              injection hdec with hdec
              exact DfsItem.noConfusion hdec
            | cons c l1t =>
              injection hdec with _ hdec
              simp at hdec
          obtain ⟨D1, D2, D3, D4, D5, D6, D7⟩ := dfsRun_inv g
            (g.nodes.length + g.edges.length + 2) [DfsItem.visit nid]
            s s1 hr hc1 hVK hMO hMB hPF hFR hEO
          have hno1 : ∀ v, alookup s1.visited v ≠ some 1 := by
            intro v hv
            exact absurd (D4.2.1 v hv) (List.not_mem_nil _)
          have hmark2 : alookup s1.visited nid = some 2 :=
            D7 nid (Or.inl (List.mem_singleton_self _))
          obtain ⟨E1, E2, E3, E4, E5, E6, E7⟩ := ih s1 s2 h hfalse
            D1 D2 D3 hno1 D5
          refine ⟨E1, E2, E3, E4, E5, ?_, ?_⟩
          · intro v hv
            exact E6 v (D6 v hv)
          · intro v hv
            rcases List.mem_cons.mp hv with hv | hv
            · subst hv
              exact E6 v hmark2
            · exact E7 v hv
      · rw [if_neg hm]
        intro h
        have hm2 : m = 2 := by
          rcases hMB nid m hx with h0 | h1 | h2
          · exact absurd h0 hm
          · rw [h1] at hx
            exact absurd hx (hN1 nid)
          · exact h2
        obtain ⟨E1, E2, E3, E4, E5, E6, E7⟩ := ih s s2 h hfalse
          hVK hMO hMB hN1 hEO
        refine ⟨E1, E2, E3, E4, E5, E6, ?_⟩
        intro v hv
        rcases List.mem_cons.mp hv with hv | hv
        · subst hv
          rw [hm2] at hx
          exact E6 v hx
        · exact E7 v hv

theorem dfs_sort_topological (g : Graph)
    (hnd : (g.nodes.map Prod.fst).Nodup)
    (hsrc : ∀ e ∈ g.edgeList, e.source ∈ akeys g.nodes)
    (ord : List String) (h : dfs_sort g = .ok ord) :
    ord.Perm (akeys g.nodes) ∧
    ∀ e ∈ g.edgeList, listBefore ord e.source e.target := by
  rw [dfs_sort] at h
  revert h
  cases hT : dfsTop g (DfsSt.init g) (akeys g.nodes) with
  | error err => intro h; cases h
  | ok s =>
    intro h
    dsimp only at h
    by_cases hcy : s.cycle = true
    · rw [if_pos hcy] at h
      cases h
    · rw [if_neg hcy] at h
      injection h with h
      subst h
      have hfalse : s.cycle = false := by
        cases hc : s.cycle
        · rfl
        · exact absurd hc hcy
      have hinitlook : ∀ v, alookup (DfsSt.init g).visited v =
          (alookup g.nodes v).map (fun _ => (0 : Nat)) := by
        intro v
        exact alookup_map_pair g.nodes (fun _ => (0 : Nat)) v
      have hVK0 : VisitedKeys g (DfsSt.init g) :=
        akeys_map_pair g.nodes (fun _ => (0 : Nat))
      have hMO0 : MarkOrder (DfsSt.init g) := by
        constructor
        · intro v
          rw [hinitlook v]
          constructor
          · intro hk
            cases hy : alookup g.nodes v with
            | none => rw [hy] at hk; cases hk
            | some n =>
              rw [hy] at hk
              simp at hk
          · intro hk
            exact absurd hk (List.not_mem_nil v)
        · exact List.nodup_nil
      have hMB0 : MarksBound (DfsSt.init g) := by
        intro v k hk
        rw [hinitlook v] at hk
        cases hy : alookup g.nodes v with
        | none => rw [hy] at hk; cases hk
        | some n =>
          rw [hy] at hk
          simp at hk
          omega
      have hN10 : ∀ v, alookup (DfsSt.init g).visited v ≠ some 1 := by
        intro v hk
        rw [hinitlook v] at hk
        cases hy : alookup g.nodes v with
        | none => rw [hy] at hk; cases hk
        | some n =>
          rw [hy] at hk
          simp at hk
      have hEO0 : EdgeOrder g (DfsSt.init g) := by
        intro e _ hsrc0
        exact absurd hsrc0 (List.not_mem_nil _)
      obtain ⟨F1, F2, F3, F4, F5, F6, F7⟩ := dfsTop_inv g (akeys g.nodes)
        (DfsSt.init g) s hT hfalse hVK0 hMO0 hMB0 hN10 hEO0
      obtain ⟨fo1, fo2⟩ := F2
      have hsub1 : ∀ v ∈ akeys g.nodes, v ∈ s.postorder :=
        fun v hv => (fo1 v).mp (F7 v hv)
      have hsub2 : ∀ v ∈ s.postorder, v ∈ akeys g.nodes := by
        intro v hv
        have := (fo1 v).mpr hv
        have hk := mem_keys_of_alookup_eq_some s.visited v 2 this
        rw [F1] at hk
        exact hk
      have hperm : s.postorder.Perm (akeys g.nodes) := by
        refine List.Subperm.antisymm ?_ ?_
        · exact List.Nodup.subperm fo2 (fun v hv => hsub2 v hv)
        · exact List.Nodup.subperm hnd (fun v hv => hsub1 v hv)
      refine ⟨(List.reverse_perm s.postorder).trans hperm, ?_⟩
      intro e he
      have hsm : e.source ∈ s.postorder := hsub1 e.source (hsrc e he)
      exact listBefore_reverse s.postorder e.target e.source
        (F5 e he hsm)

def c3node (i : String) : Node := { id := i, type := "t", inputs := [] }

/-- Two independent nodes inserted in the order a, b: Kahn emits them
in insertion order, reversed DFS post-order emits them reversed. -/
def c3graph : Graph :=
  Graph.addNode (Graph.addNode {} (c3node "a")) (c3node "b")

/-- A two-node chain a → b used to instantiate the amended claim. -/
def c3wgraph : Graph :=
  Graph.addEdge (Graph.addNode (Graph.addNode {} (c3node "a"))
    (c3node "b"))
    { id := "e1", source := "a", source_output := "out",
      target := "b", target_input := "inp" }

/-- C3 counterexample: on the two-node edgeless graph the two sorters
return different orders — Kahn follows node insertion order while
reversed DFS post-order reverses it — refuting both "produce the same
order" and the claimed (priority, id) tie-break (neither algorithm
reads a priority at all). -/
theorem C3_counterexample :
    kahn_sort c3graph = .ok ["a", "b"] ∧
    dfs_sort c3graph = .ok ["b", "a"] ∧
    kahn_sort c3graph ≠ dfs_sort c3graph := by
  refine ⟨rfl, rfl, ?_⟩
  intro h
  rw [show kahn_sort c3graph = Except.ok ["a", "b"] from rfl,
    show dfs_sort c3graph = Except.ok ["b", "a"] from rfl] at h
  simp at h

/-- C3: the spec claims that `kahn_sort` and `dfs_sort` produce the
same dependency-respecting order on acyclic graphs, with ties among
independent nodes broken by (priority ascending, node id ascending).
The equal-order and tie-break parts are refuted (the algorithms order
independent nodes differently and never read a priority).  Amended
property, proved here: on a graph with distinct node ids whose edge
sources name declared nodes, each algorithm — whenever it returns an
order at all — returns a permutation of the node ids in which every
edge's source precedes its target; both are pure functions of the
graph, so two runs on identical inputs produce identical orders, with
ties broken by node insertion order. -/
theorem C3_sorts_topological (g : Graph)
    (hnd : (g.nodes.map Prod.fst).Nodup)
    (hsrc : ∀ e ∈ g.edgeList, e.source ∈ akeys g.nodes) :
    (∀ ord, kahn_sort g = .ok ord → ord.Perm (akeys g.nodes) ∧
      ∀ e ∈ g.edgeList, listBefore ord e.source e.target) ∧
    (∀ ord, dfs_sort g = .ok ord → ord.Perm (akeys g.nodes) ∧
      ∀ e ∈ g.edgeList, listBefore ord e.source e.target) :=
  ⟨fun ord h => kahn_sort_topological g hnd ord h,
   fun ord h => dfs_sort_topological g hnd hsrc ord h⟩

/-- Witness for C3 at the two-node chain a → b. -/
theorem C3_witness :
    ((c3wgraph.nodes.map Prod.fst).Nodup ∧
      (∀ e ∈ c3wgraph.edgeList, e.source ∈ akeys c3wgraph.nodes)) ∧
    ((∀ ord, kahn_sort c3wgraph = .ok ord →
        ord.Perm (akeys c3wgraph.nodes) ∧
        ∀ e ∈ c3wgraph.edgeList, listBefore ord e.source e.target) ∧
     (∀ ord, dfs_sort c3wgraph = .ok ord →
        ord.Perm (akeys c3wgraph.nodes) ∧
        ∀ e ∈ c3wgraph.edgeList, listBefore ord e.source e.target)) :=
  ⟨⟨by decide, by decide⟩,
   C3_sorts_topological c3wgraph (by decide) (by decide)⟩

end Cognot
